import Mathlib

/-!
Verification of the fradiavolo invoice/delivery-tracking backend
(`src/server.js`, two near-duplicate server variants in one file).

JavaScript strings are modelled as `List Char`; machine behaviour such as
JS truthiness, `String.prototype.trim`, `split`, `indexOf`, `parseFloat`
and the JSON codec used for the audit-history column are embedded
explicitly below.  File-system state is modelled as an association list of
(name, content) pairs.
-/

set_option linter.unnecessarySeqFocus false

namespace FDV

/-- JS strings, modelled as lists of unicode characters. -/
abbrev Chars := List Char

/-- Embed a Lean string literal as a JS string value. -/
def chars (s : String) : Chars := s.data

/-- The whitespace class used by JS `trim` / `\s` (ASCII part plus NBSP;
the exact extension set is irrelevant to every property proved here). -/
def isJsWs (c : Char) : Bool :=
  c = ' ' || c = '\t' || c = '\n' || c = '\r' || c = '\x0b' || c = '\x0c' || c = ' '

/-- Drop trailing characters satisfying `p`. -/
def dropTrailing (p : Char → Bool) (l : Chars) : Chars :=
  (l.reverse.dropWhile p).reverse

/-- JS `String.prototype.trim`. -/
def trimJs (l : Chars) : Chars :=
  dropTrailing isJsWs (l.dropWhile isJsWs)

/-- A string is blank when it trims to the empty string. -/
def isBlankL (l : Chars) : Bool := (trimJs l).isEmpty

/-- JS truthiness of a string value (`''` is falsy, everything else truthy). -/
def truthyL (l : Chars) : Bool := !l.isEmpty

theorem dropWhile_id_of {p : Char → Bool} {l : Chars} (h : ∀ c ∈ l, ¬ p c = true) :
    l.dropWhile p = l := by
  cases l with
  | nil => rfl
  | cons a t => simp [List.dropWhile_cons, h a (List.mem_cons_self _ _)]

/-! ## `cleanForFilename` (src/server.js lines 241-246)

```js
const cleanForFilename = (str) =>
  String(str)
    .replace(/[\/\\:*?"<>|]/g, '_')
    .replace(/\s+/g, '_')
    .replace(/_{2,}/g, '_')
    .trim();
```
-/

/-- The filesystem-special characters replaced by `cleanForFilename`. -/
def isFsSpecial (c : Char) : Bool :=
  c = '/' || c = '\\' || c = ':' || c = '*' || c = '?' || c = '"' || c = '<' || c = '>' || c = '|'

/-- `.replace(/[\/\\:*?"<>|]/g, '_')`. -/
def replFsSpecial (l : Chars) : Chars :=
  l.map (fun c => if isFsSpecial c then '_' else c)

/-- One pass of run collapsing: each maximal run of characters satisfying
`p` is replaced by a single `'_'`; the boolean records whether the scanner
is inside a run whose underscore has already been emitted. -/
def runCollapse (p : Char → Bool) : Bool → Chars → Chars
  | _, [] => []
  | inRun, c :: rest =>
      if p c then
        if inRun then runCollapse p true rest
        else '_' :: runCollapse p true rest
      else c :: runCollapse p false rest

/-- `.replace(/\s+/g, '_')`: each maximal whitespace run becomes one `'_'`. -/
def collapseWs (l : Chars) : Chars := runCollapse isJsWs false l

/-- `.replace(/_{2,}/g, '_')`: each maximal underscore run becomes one `'_'`
(runs of length one are unchanged, which is the same replacement). -/
def collapseUnd (l : Chars) : Chars := runCollapse (fun c => c = '_') false l

/-- `cleanForFilename` from src/server.js lines 241-246. -/
def cleanForFilename (l : Chars) : Chars :=
  trimJs (collapseUnd (collapseWs (replFsSpecial l)))

/-! ### Idempotence machinery for `cleanForFilename` -/

theorem mem_runCollapse {p : Char → Bool} {c : Char} :
    ∀ {l : Chars} {b : Bool}, c ∈ runCollapse p b l → c = '_' ∨ c ∈ l := by
  intro l
  induction l with
  | nil => intro b h; cases h
  | cons d rest ih =>
      intro b h
      rw [runCollapse] at h
      by_cases hd : p d = true
      · rw [if_pos hd] at h
        cases b with
        | true =>
            rcases ih h with h | h
            · exact Or.inl h
            · exact Or.inr (List.mem_cons_of_mem _ h)
        | false =>
            rcases List.mem_cons.mp h with h | h
            · exact Or.inl h
            · rcases ih h with h | h
              · exact Or.inl h
              · exact Or.inr (List.mem_cons_of_mem _ h)
      · rw [if_neg hd] at h
        rcases List.mem_cons.mp h with h | h
        · exact Or.inr (h ▸ List.mem_cons_self _ _)
        · rcases ih h with h | h
          · exact Or.inl h
          · exact Or.inr (List.mem_cons_of_mem _ h)

theorem notP_runCollapse {p : Char → Bool} {c : Char} :
    ∀ {l : Chars} {b : Bool}, c ∈ runCollapse p b l → c = '_' ∨ p c = false := by
  intro l
  induction l with
  | nil => intro b h; cases h
  | cons d rest ih =>
      intro b h
      rw [runCollapse] at h
      by_cases hd : p d = true
      · rw [if_pos hd] at h
        cases b with
        | true => exact ih h
        | false =>
            rcases List.mem_cons.mp h with h | h
            · exact Or.inl h
            · exact ih h
      · rw [if_neg hd] at h
        rcases List.mem_cons.mp h with h | h
        · subst h
          exact Or.inr (Bool.not_eq_true _ ▸ hd)
        · exact ih h

theorem noWs_collapseWs {c : Char} {l : Chars} (h : c ∈ collapseWs l) : ¬ isJsWs c = true := by
  rcases notP_runCollapse h with h | h
  · subst h; decide
  · rw [h]; intro hc; cases hc

/-- After an underscore has been emitted, the next emitted character is not
an underscore. -/
theorem head?_undGo_true : ∀ (l : Chars),
    (runCollapse (fun c => c = '_') true l).head? ≠ some '_' := by
  intro l
  induction l with
  | nil => intro h; cases h
  | cons d rest ih =>
      rw [runCollapse]
      by_cases hd : d = '_'
      · rw [if_pos (by simp [hd])]
        exact ih
      · rw [if_neg (by simp [hd])]
        intro h
        exact hd (Option.some_injective _ h)

/-- No output of the underscore-collapsing pass contains `"__"`. -/
theorem noDD_undGo : ∀ (l : Chars) (b : Bool),
    ¬ ['_', '_'] <:+: runCollapse (fun c => c = '_') b l := by
  intro l
  induction l with
  | nil =>
      intro b h
      rw [runCollapse] at h
      rcases h with ⟨s, t, ht⟩
      simp at ht
  | cons d rest ih =>
      intro b
      rw [runCollapse]
      by_cases hd : d = '_'
      · rw [if_pos (by simp [hd])]
        cases b with
        | true => exact ih true
        | false =>
            intro h
            rcases List.infix_cons_iff.mp h with h | h
            · have h2 : (runCollapse (fun c => c = '_') true rest).head? = some '_' := by
                rcases h with ⟨t, ht⟩
                have := congrArg List.tail ht
                simp only [List.cons_append, List.tail_cons] at this
                rw [← this]
                rfl
              exact head?_undGo_true rest h2
            · exact ih true h
      · rw [if_neg (by simp [hd])]
        intro h
        rcases List.infix_cons_iff.mp h with h | h
        · rcases h with ⟨t, ht⟩
          have : '_' = d := by
            have := congrArg List.head? ht
            simpa using this
          exact hd this.symm
        · exact ih false h

/-- `replFsSpecial` is the identity on strings without special characters. -/
theorem replFsSpecial_id {l : Chars} (h : ∀ c ∈ l, ¬ isFsSpecial c = true) :
    replFsSpecial l = l := by
  unfold replFsSpecial
  have hc : ∀ c ∈ l, (if isFsSpecial c then '_' else c) = c := by
    intro c hc
    rw [if_neg (h c hc)]
  exact (List.map_congr_left hc).trans (List.map_id l)

/-- The collapsing pass is the identity when no character satisfies `p`. -/
theorem runCollapse_id {p : Char → Bool} :
    ∀ {l : Chars}, (∀ c ∈ l, ¬ p c = true) → runCollapse p false l = l := by
  intro l
  induction l with
  | nil => intro _; rfl
  | cons d rest ih =>
      intro h
      rw [runCollapse, if_neg (h d (List.mem_cons_self _ _)),
        ih (fun c hc => h c (List.mem_cons_of_mem _ hc))]

theorem collapseWs_id {l : Chars} (h : ∀ c ∈ l, ¬ isJsWs c = true) : collapseWs l = l :=
  runCollapse_id h

/-- The underscore-collapsing pass is the identity on strings without a
double underscore. -/
theorem undGo_id : ∀ (l : Chars),
    (¬ ['_', '_'] <:+: l → runCollapse (fun c => c = '_') false l = l) ∧
    (l.head? ≠ some '_' → ¬ ['_', '_'] <:+: l →
      runCollapse (fun c => c = '_') true l = l) := by
  intro l
  induction l with
  | nil => exact ⟨fun _ => rfl, fun _ _ => rfl⟩
  | cons d rest ih =>
      constructor
      · intro h
        by_cases hd : d = '_'
        · subst hd
          rw [runCollapse, if_pos (by simp)]
          have hh : rest.head? ≠ some '_' := by
            intro hh
            cases rest with
            | nil => cases hh
            | cons e u =>
                have : e = '_' := Option.some_injective _ hh
                exact h ⟨[], u, by simp [this]⟩
          rw [(ih.2) hh (fun hi => h (hi.trans ⟨['_'], [], by simp⟩))]
          simp
        · rw [runCollapse, if_neg (by simp [hd]),
            (ih.1) (fun hi => h (hi.trans ⟨[d], [], by simp⟩))]
      · intro hh h
        have hd : ¬ d = '_' := by
          intro hd
          exact hh (by rw [hd]; rfl)
        rw [runCollapse, if_neg (by simp [hd]),
          (ih.1) (fun hi => h (hi.trans ⟨[d], [], by simp⟩))]

theorem collapseUnd_id {l : Chars} (h : ¬ ['_', '_'] <:+: l) : collapseUnd l = l :=
  (undGo_id l).1 h

/-- `trimJs` is the identity on strings without whitespace. -/
theorem trimJs_id {l : Chars} (h : ∀ c ∈ l, ¬ isJsWs c = true) : trimJs l = l := by
  unfold trimJs dropTrailing
  rw [dropWhile_id_of h, dropWhile_id_of (fun c hc => h c (List.mem_reverse.mp hc)),
    List.reverse_reverse]

/-- C10 core: the intermediate result of `cleanForFilename` (before the final
`trim`) contains no special character, no whitespace, and no double
underscore; `trimJs` is then the identity on it. -/
theorem cleanForFilename_eq_core (l : Chars) :
    cleanForFilename l = collapseUnd (collapseWs (replFsSpecial l)) ∧
    (∀ c ∈ collapseUnd (collapseWs (replFsSpecial l)), ¬ isJsWs c = true) ∧
    (∀ c ∈ collapseUnd (collapseWs (replFsSpecial l)), ¬ isFsSpecial c = true) ∧
    ¬ ['_', '_'] <:+: collapseUnd (collapseWs (replFsSpecial l)) := by
  have hnoWs : ∀ c ∈ collapseUnd (collapseWs (replFsSpecial l)), ¬ isJsWs c = true := by
    intro c hc
    rcases mem_runCollapse hc with h | h
    · subst h; decide
    · exact noWs_collapseWs h
  have hnoSp : ∀ c ∈ collapseUnd (collapseWs (replFsSpecial l)), ¬ isFsSpecial c = true := by
    intro c hc
    rcases mem_runCollapse hc with h | h
    · subst h; decide
    · rcases mem_runCollapse h with h | h
      · subst h; decide
      · rcases List.mem_map.mp h with ⟨d, _, hd⟩
        subst hd
        by_cases hsp : isFsSpecial d
        · rw [if_pos hsp]; decide
        · rw [if_neg hsp]; exact hsp
  refine ⟨?_, hnoWs, hnoSp, noDD_undGo _ _⟩
  unfold cleanForFilename
  exact trimJs_id hnoWs

/-- C10: `cleanForFilename` is idempotent — sanitizing an already sanitized
string returns it unchanged, so filenames derived from sanitized components
are stable. -/
theorem cleanForFilename_idempotent (l : Chars) :
    cleanForFilename (cleanForFilename l) = cleanForFilename l := by
  obtain ⟨heq, hnoWs, hnoSp, hnoDD⟩ := cleanForFilename_eq_core l
  rw [heq]
  unfold cleanForFilename
  rw [replFsSpecial_id hnoSp, collapseWs_id hnoWs, collapseUnd_id hnoDD, trimJs_id hnoWs]

/-- Convenience form: `cleanForFilename` is the identity on strings with no
special characters, no whitespace and no double underscore. -/
theorem cleanForFilename_id {l : Chars} (h1 : ∀ c ∈ l, ¬ isFsSpecial c = true)
    (h2 : ∀ c ∈ l, ¬ isJsWs c = true) (h3 : ¬ ['_', '_'] <:+: l) :
    cleanForFilename l = l := by
  unfold cleanForFilename
  rw [replFsSpecial_id h1, collapseWs_id h2, collapseUnd_id h3, trimJs_id h2]

theorem dropWhile_head_not {p : Char → Bool} (l : Chars) (hne : l.dropWhile p ≠ []) :
    ¬ p ((l.dropWhile p).head hne) = true := by
  have h0 : 0 < (l.dropWhile p).length := List.length_pos.mpr hne
  have := List.dropWhile_get_zero_not p l h0
  simpa [List.get_mk_zero, List.head_eq_getElem] using this

/-! ## JSON values and the audit-history codec

`parseStoricoModifiche` / `aggiungiModificaAlloStorico` (src/server.js lines
121-147) call the external JSON library (`JSON.parse` / `JSON.stringify`).
Modelled from the spec: the codec is an injective serializer with a verified
round-trip (`jparse_encJson`); the concrete byte format of the external
library is not observed by the program beyond non-blankness of serialized
arrays, which the model also provides (`isBlankL_encJson_arr`). -/

inductive Json where
  | null : Json
  | bool (b : Bool) : Json
  | num (n : Nat) : Json
  | str (s : Chars) : Json
  | arr (l : List Json) : Json
  | obj (fields : List (Chars × Json)) : Json

/-- Unary length marker used by the model serializer. -/
def encNat (n : Nat) : Chars := List.replicate n '1' ++ ['0']

mutual
/-- Model serializer for JSON values (stands in for `JSON.stringify`). -/
def encJson : Json → Chars
  | .null => ['n']
  | .bool b => ['b', if b then 't' else 'f']
  | .num n => 'q' :: encNat n
  | .str s => 's' :: (encNat s.length ++ s)
  | .arr l => 'a' :: (encNat l.length ++ encJsonList l)
  | .obj fs => 'o' :: (encNat fs.length ++ encJsonFields fs)

def encJsonList : List Json → Chars
  | [] => []
  | v :: t => encJson v ++ encJsonList t

def encJsonFields : List (Chars × Json) → Chars
  | [] => []
  | (k, v) :: t => encNat k.length ++ k ++ encJson v ++ encJsonFields t
end

def decNat : Chars → Option (Nat × Chars)
  | '0' :: r => some (0, r)
  | '1' :: r =>
      match decNat r with
      | some (n, r') => some (n + 1, r')
      | none => none
  | _ => none

/-- Decode `n` consecutive values using the supplied single-value decoder. -/
def decListWith (rec : Chars → Option (Json × Chars)) : Nat → Chars → Option (List Json × Chars)
  | 0, l => some ([], l)
  | n + 1, l =>
      match rec l with
      | some (v, r) =>
          match decListWith rec n r with
          | some (vs, r') => some (v :: vs, r')
          | none => none
      | none => none

/-- Decode `n` consecutive key/value pairs using the supplied value decoder. -/
def decFieldsWith (rec : Chars → Option (Json × Chars)) :
    Nat → Chars → Option (List (Chars × Json) × Chars)
  | 0, l => some ([], l)
  | n + 1, l =>
      match decNat l with
      | some (kn, r) =>
          if kn ≤ r.length then
            match rec (r.drop kn) with
            | some (v, r') =>
                match decFieldsWith rec n r' with
                | some (fs, r'') => some ((r.take kn, v) :: fs, r'')
                | none => none
            | none => none
          else none
      | none => none

/-- One layer of the deserializer, parameterized by the decoder for nested values. -/
def decJson1 (rec : Chars → Option (Json × Chars)) : Chars → Option (Json × Chars)
  | 'n' :: r => some (.null, r)
  | 'b' :: 't' :: r => some (.bool true, r)
  | 'b' :: 'f' :: r => some (.bool false, r)
  | 'q' :: r =>
      match decNat r with
      | some (n, r') => some (.num n, r')
      | none => none
  | 's' :: r =>
      match decNat r with
      | some (n, r') =>
          if n ≤ r'.length then some (.str (r'.take n), r'.drop n) else none
      | none => none
  | 'a' :: r =>
      match decNat r with
      | some (n, r') =>
          match decListWith rec n r' with
          | some (l, r'') => some (.arr l, r'')
          | none => none
      | none => none
  | 'o' :: r =>
      match decNat r with
      | some (n, r') =>
          match decFieldsWith rec n r' with
          | some (fs, r'') => some (.obj fs, r'')
          | none => none
      | none => none
  | _ => none

/-- Fueled model deserializer (stands in for `JSON.parse`). -/
def decJson : Nat → Chars → Option (Json × Chars)
  | 0, _ => none
  | fuel + 1, l => decJson1 (decJson fuel) l

mutual
/-- Nesting depth, used to bound the fuel needed by `decJson`. -/
def jdepth : Json → Nat
  | .null | .bool _ | .num _ | .str _ => 1
  | .arr l => jdepthList l + 1
  | .obj fs => jdepthFields fs + 1

def jdepthList : List Json → Nat
  | [] => 0
  | v :: t => max (jdepth v) (jdepthList t)

def jdepthFields : List (Chars × Json) → Nat
  | [] => 0
  | (_, v) :: t => max (jdepth v) (jdepthFields t)
end

theorem decNat_encNat (n : Nat) (r : Chars) : decNat (encNat n ++ r) = some (n, r) := by
  induction n with
  | zero => rfl
  | succ m ih =>
      have : encNat (m + 1) ++ r = '1' :: (encNat m ++ r) := by
        simp [encNat, List.replicate_succ]
      rw [this, decNat, ih]

mutual
theorem decJson_encJson (v : Json) : ∀ (rest : Chars) (fuel : Nat), jdepth v ≤ fuel →
    decJson fuel (encJson v ++ rest) = some (v, rest) := by
  intro rest fuel hf
  match v, fuel with
  | .null, fuel + 1 => simp [encJson, decJson, decJson1]
  | .bool b, fuel + 1 => cases b <;> simp [encJson, decJson, decJson1]
  | .num n, fuel + 1 =>
      have h1 : encJson (.num n) ++ rest = 'q' :: (encNat n ++ rest) := by simp [encJson]
      rw [h1]
      simp only [decJson, decJson1, decNat_encNat]
  | .str s, fuel + 1 =>
      have h1 : encJson (.str s) ++ rest = 's' :: (encNat s.length ++ (s ++ rest)) := by
        simp [encJson]
      rw [h1]
      simp only [decJson, decJson1, decNat_encNat]
      rw [if_pos (by simp), List.take_left, List.drop_left]
  | .arr l, fuel + 1 =>
      have h1 : encJson (.arr l) ++ rest = 'a' :: (encNat l.length ++ (encJsonList l ++ rest)) := by
        simp [encJson]
      rw [h1]
      simp only [decJson, decJson1, decNat_encNat]
      rw [decListWith_encJsonList l rest fuel (by simpa [jdepth] using Nat.lt_succ_iff.mp hf)]
  | .obj fs, fuel + 1 =>
      have h1 : encJson (.obj fs) ++ rest =
          'o' :: (encNat fs.length ++ (encJsonFields fs ++ rest)) := by
        simp [encJson]
      rw [h1]
      simp only [decJson, decJson1, decNat_encNat]
      rw [decFieldsWith_encJsonFields fs rest fuel (by simpa [jdepth] using Nat.lt_succ_iff.mp hf)]

theorem decListWith_encJsonList (l : List Json) : ∀ (rest : Chars) (fuel : Nat),
    jdepthList l ≤ fuel →
    decListWith (decJson fuel) l.length (encJsonList l ++ rest) = some (l, rest) := by
  intro rest fuel hf
  match l with
  | [] => simp [encJsonList, decListWith]
  | v :: t =>
      have hv : jdepth v ≤ fuel := le_trans (le_max_left _ _) (by simpa [jdepthList] using hf)
      have ht : jdepthList t ≤ fuel := le_trans (le_max_right _ _) (by simpa [jdepthList] using hf)
      have h1 : encJsonList (v :: t) ++ rest = encJson v ++ (encJsonList t ++ rest) := by
        simp [encJsonList]
      rw [h1, List.length_cons]
      simp only [decListWith, decJson_encJson v _ fuel hv,
        decListWith_encJsonList t rest fuel ht]

theorem decFieldsWith_encJsonFields (fs : List (Chars × Json)) : ∀ (rest : Chars) (fuel : Nat),
    jdepthFields fs ≤ fuel →
    decFieldsWith (decJson fuel) fs.length (encJsonFields fs ++ rest) = some (fs, rest) := by
  intro rest fuel hf
  match fs with
  | [] => simp [encJsonFields, decFieldsWith]
  | (k, v) :: t =>
      have hv : jdepth v ≤ fuel := le_trans (le_max_left _ _) (by simpa [jdepthFields] using hf)
      have ht : jdepthFields t ≤ fuel :=
        le_trans (le_max_right _ _) (by simpa [jdepthFields] using hf)
      have h1 : encJsonFields ((k, v) :: t) ++ rest =
          encNat k.length ++ (k ++ (encJson v ++ (encJsonFields t ++ rest))) := by
        simp [encJsonFields]
      rw [h1, List.length_cons]
      simp only [decFieldsWith, decNat_encNat]
      rw [if_pos (by simp), List.take_left, List.drop_left]
      simp only [decJson_encJson v _ fuel hv, decFieldsWith_encJsonFields t rest fuel ht]
end

mutual
theorem jdepth_le_length_encJson (v : Json) : jdepth v ≤ (encJson v).length := by
  match v with
  | .null => simp [jdepth, encJson]
  | .bool b => simp [jdepth, encJson]
  | .num n => simp [jdepth, encJson]
  | .str s => simp [jdepth, encJson]
  | .arr l =>
      have := jdepthList_le_length_encJsonList l
      simp only [jdepth, encJson, List.length_cons, List.length_append]
      omega
  | .obj fs =>
      have := jdepthFields_le_length_encJsonFields fs
      simp only [jdepth, encJson, List.length_cons, List.length_append]
      omega

theorem jdepthList_le_length_encJsonList (l : List Json) :
    jdepthList l ≤ (encJsonList l).length := by
  match l with
  | [] => simp [jdepthList, encJsonList]
  | v :: t =>
      have h1 := jdepth_le_length_encJson v
      have h2 := jdepthList_le_length_encJsonList t
      simp only [jdepthList, encJsonList, List.length_append]
      omega

theorem jdepthFields_le_length_encJsonFields (fs : List (Chars × Json)) :
    jdepthFields fs ≤ (encJsonFields fs).length := by
  match fs with
  | [] => simp [jdepthFields, encJsonFields]
  | (k, v) :: t =>
      have h1 := jdepth_le_length_encJson v
      have h2 := jdepthFields_le_length_encJsonFields t
      simp only [jdepthFields, encJsonFields, List.length_append]
      omega
end

/-- Model of `JSON.parse` over full inputs: `none` models a thrown
`SyntaxError` (caught by the caller). -/
def jparse (l : Chars) : Option Json :=
  match decJson (l.length + 1) l with
  | some (v, []) => some v
  | _ => none

theorem jparse_encJson (v : Json) : jparse (encJson v) = some v := by
  unfold jparse
  have h : decJson ((encJson v).length + 1) (encJson v ++ []) = some (v, []) :=
    decJson_encJson v [] _ (le_trans (jdepth_le_length_encJson v) (Nat.le_succ _))
  rw [List.append_nil] at h
  rw [h]

theorem isBlankL_of_head_notWs (c : Char) (t : Chars) (hc : ¬ isJsWs c = true) :
    isBlankL (c :: t) = false := by
  unfold isBlankL trimJs dropTrailing
  rw [List.dropWhile_cons, if_neg hc]
  rcases h : ((c :: t).reverse.dropWhile isJsWs) with _ | ⟨a, r⟩
  · exfalso
    rw [List.dropWhile_eq_nil_iff] at h
    exact hc (h c (by simp))
  · simp [h]

theorem isBlankL_encJson_arr (l : List Json) : isBlankL (encJson (.arr l)) = false :=
  isBlankL_of_head_notWs 'a' _ (by decide)

/-! ## Audit history codec (src/server.js lines 121-147)

```js
const parseStoricoModifiche = (storicoString) => {
  if (!storicoString || storicoString.trim() === '') return [];
  try {
    const parsed = JSON.parse(storicoString);
    return Array.isArray(parsed) ? parsed : [];
  } catch (error) { console.error(...); return []; }
};
```
The function is total in the model (it never throws): every failure path
returns the empty list. -/

/-- A history entry as pushed by `aggiungiModificaAlloStorico`. -/
structure ChangeRecord where
  timestamp : Chars
  campo : Chars
  valore_precedente : Chars
  valore_nuovo : Chars
  modificato_da : Chars
  data_modifica : Chars

/-- The JSON object literal pushed onto the history array. -/
def ChangeRecord.toJson (r : ChangeRecord) : Json :=
  .obj [(chars "timestamp", .str r.timestamp),
        (chars "campo", .str r.campo),
        (chars "valore_precedente", .str r.valore_precedente),
        (chars "valore_nuovo", .str r.valore_nuovo),
        (chars "modificato_da", .str r.modificato_da),
        (chars "data_modifica", .str r.data_modifica)]

/-- `parseStoricoModifiche` (src/server.js lines 121-131). -/
def parseStoricoModifiche (storicoString : Chars) : List Json :=
  if truthyL storicoString = false ∨ isBlankL storicoString = true then []
  else
    match jparse storicoString with
    | none => []
    | some (Json.arr l) => l
    | some _ => []

/-- `aggiungiModificaAlloStorico` (src/server.js lines 133-147).
The `new Date()` values are passed in as `nowIso` / `nowLocale`; the
`valorePrecedente || ''` defaulting is the identity in this model because an
absent JS value is already modelled as the empty string by the caller. -/
def aggiungiModificaAlloStorico (storicoAttuale campoModificato valorePrecedente valoreNuovo
    modificatoDa nowIso nowLocale : Chars) : Chars :=
  encJson (.arr (parseStoricoModifiche storicoAttuale ++
    [ChangeRecord.toJson
      { timestamp := nowIso
        campo := campoModificato
        valore_precedente := valorePrecedente
        valore_nuovo := valoreNuovo
        modificato_da := modificatoDa
        data_modifica := nowLocale }]))

/-- Decoding a serialized array recovers it exactly. -/
theorem parseStorico_encJson_arr (l : List Json) :
    parseStoricoModifiche (encJson (.arr l)) = l := by
  unfold parseStoricoModifiche
  rw [if_neg, jparse_encJson]
  · intro h
    rcases h with h | h
    · rw [show truthyL (encJson (.arr l)) = true by simp [truthyL, encJson]] at h
      cases h
    · rw [isBlankL_encJson_arr] at h
      cases h

/-- Appending one change re-reads the old history and pushes one record. -/
theorem parseStorico_aggiungi (storico campo vp vn md t1 t2 : Chars) :
    parseStoricoModifiche (aggiungiModificaAlloStorico storico campo vp vn md t1 t2) =
      parseStoricoModifiche storico ++
        [ChangeRecord.toJson
          { timestamp := t1, campo := campo, valore_precedente := vp,
            valore_nuovo := vn, modificato_da := md, data_modifica := t2 }] := by
  unfold aggiungiModificaAlloStorico
  rw [parseStorico_encJson_arr]

/-- C8: `parseStoricoModifiche` never throws — it is total, and: blank input
yields the empty list; input on which structured deserialization fails
yields the empty list; input deserializing to a non-array yields the empty
list; a well-formed serialized list yields exactly that list. -/
theorem parseStoricoModifiche_spec (s : Chars) :
    (isBlankL s = true → parseStoricoModifiche s = []) ∧
    (jparse s = none → parseStoricoModifiche s = []) ∧
    (∀ v, jparse s = some v → (∀ l, v ≠ Json.arr l) → parseStoricoModifiche s = []) ∧
    (∀ l, isBlankL s = false → jparse s = some (Json.arr l) → parseStoricoModifiche s = l) := by
  refine ⟨?_, ?_, ?_, ?_⟩
  · intro h
    unfold parseStoricoModifiche
    rw [if_pos (Or.inr h)]
  · intro h
    unfold parseStoricoModifiche
    by_cases hb : truthyL s = false ∨ isBlankL s = true
    · rw [if_pos hb]
    · rw [if_neg hb, h]
  · intro v hv hne
    unfold parseStoricoModifiche
    by_cases hb : truthyL s = false ∨ isBlankL s = true
    · rw [if_pos hb]
    · rw [if_neg hb, hv]
      match v, hne with
      | Json.null, _ => rfl
      | Json.bool _, _ => rfl
      | Json.num _, _ => rfl
      | Json.str _, _ => rfl
      | Json.obj _, _ => rfl
      | Json.arr l, hne => exact absurd rfl (hne l)
  · intro l hb hv
    unfold parseStoricoModifiche
    rw [if_neg, hv]
    intro h
    rcases h with h | h
    · have : isBlankL s = true := by
        have he : s = [] := by
          simpa [truthyL] using h
        subst he
        rfl
      rw [this] at hb
      cases hb
    · rw [h] at hb
      cases hb

/-- Witness for C8 at concrete inputs: a blank history and a well-formed
two-cases exercise of the theorem. -/
theorem parseStoricoModifiche_spec_witness :
    parseStoricoModifiche [] = [] ∧ parseStoricoModifiche (chars "a10n") = [Json.null] :=
  ⟨(parseStoricoModifiche_spec []).1 rfl,
   (parseStoricoModifiche_spec (chars "a10n")).2.2.2 [Json.null] rfl rfl⟩

/-! ## JS numbers and `parseFloat` -/

/-- The value space of JS `parseFloat` as observed by this program: `NaN`,
signed infinity (the `Infinity` literal), or a finite value.  Finite values
are modelled as an exact (unreduced) decimal fraction `num / den`;
IEEE rounding and overflow-to-infinity of huge literals are below the
abstraction level used by the parser claims, which only observe NaN-ness,
finiteness and pass the value through unchanged. -/
inductive JsNum where
  | nan : JsNum
  | inf (neg : Bool) : JsNum
  | fin (num : Int) (den : Nat) : JsNum
deriving DecidableEq

def JsNum.isNaN : JsNum → Bool
  | .nan => true
  | _ => false

def JsNum.isFinite : JsNum → Bool
  | .fin _ _ => true
  | _ => false

/-- Numeric value of a digit string (most significant first). -/
def natFromDigits (l : Chars) : Nat :=
  l.foldl (fun a c => a * 10 + (c.toNat - 48)) 0

/-- JS `parseFloat`: skip leading whitespace, optional sign, `Infinity`
literal or longest decimal-literal prefix (digits, optional fraction,
optional exponent requiring at least one exponent digit). -/
def js_parseFloat (s : Chars) : JsNum :=
  let t := s.dropWhile isJsWs
  let (neg, t1) : Bool × Chars :=
    match t with
    | '-' :: r => (true, r)
    | '+' :: r => (false, r)
    | _ => (false, t)
  if (chars "Infinity") <+: t1 then .inf neg
  else
    let ip := t1.takeWhile Char.isDigit
    let r1 := t1.dropWhile Char.isDigit
    let (fp, r2) : Chars × Chars :=
      match r1 with
      | '.' :: r => (r.takeWhile Char.isDigit, r.dropWhile Char.isDigit)
      | _ => ([], r1)
    if ip = [] ∧ fp = [] then .nan
    else
      let mnum : Nat := natFromDigits ip * 10 ^ fp.length + natFromDigits fp
      let mden : Nat := 10 ^ fp.length
      let exp : Int :=
        match r2 with
        | e :: r3 =>
            if e = 'e' ∨ e = 'E' then
              let (es, r4) : Int × Chars :=
                match r3 with
                | '-' :: r => (-1, r)
                | '+' :: r => (1, r)
                | _ => (1, r3)
              let ed := r4.takeWhile Char.isDigit
              if ed = [] then 0 else es * (natFromDigits ed : Int)
            else 0
        | [] => 0
      let pnum : Nat := if 0 ≤ exp then mnum * 10 ^ exp.toNat else mnum
      let pden : Nat := if 0 ≤ exp then mden else mden * 10 ^ (-exp).toNat
      .fin (if neg then -(pnum : Int) else (pnum : Int)) pden

/-! ## DDT line parser (src/server.js lines 152-211) -/

/-- A structured DDT line as produced by `parseRigaDDT`. -/
structure RigaDDT where
  codice : Chars
  nome : Chars
  um : Chars
  quantita : JsNum
deriving DecidableEq

/-- Index of the first occurrence of `sep` as a sublist (JS
`String.indexOf`, with `none` standing for `-1`). -/
def subIdx (sep : Chars) : Chars → Option Nat
  | [] => if sep <+: ([] : Chars) then some 0 else none
  | c :: t =>
      if sep <+: (c :: t) then some 0
      else (subIdx sep t).map (· + 1)

/-- JS `indexOf` for a single character. -/
def jsIndexOf (c : Char) (l : Chars) : Option Nat := subIdx [c] l

/-- Split at the first occurrence of `sep`: returns the part before and,
when `sep` occurs, the part after it (JS `split(sep)` segments 0 and
rest). -/
def breakOnSub (sep : Chars) : Chars → (Chars × Option Chars)
  | [] => ([], none)
  | c :: t =>
      if sep <+: (c :: t) then ([], some ((c :: t).drop sep.length))
      else
        match breakOnSub sep t with
        | (pre, rest) => (c :: pre, rest)

/-- The `" - "` separator of Grammar B. -/
def sepDash : Chars := chars " - "

/-- FORMATO 1 of `parseRigaDDT` (pipe-separated, lines 158-168): only fires
when the line splits into exactly four pipe fields; otherwise the source
falls through to FORMATO 2. -/
def pipeParse (riga : Chars) : Option RigaDDT :=
  if '|' ∈ riga then
    match (riga.splitOn '|').map trimJs with
    | [c, n, u, q] => some { codice := c, nome := n, um := u, quantita := js_parseFloat q }
    | _ => none
  else none

/-- FORMATO 2 of `parseRigaDDT` (underscore + dash, lines 172-188).
`riga.split(' - ')` is destructured into its first two segments; the code
part must contain `'_'` at a positive index. -/
def dashParse (riga : Chars) : Option RigaDDT :=
  if '_' ∈ riga ∧ sepDash <:+: riga then
    match breakOnSub sepDash riga with
    | (s0, some rest1) =>
        let s1 := (breakOnSub sepDash rest1).1
        match jsIndexOf '_' s0 with
        | some k =>
            if 0 < k then
              let codice := trimJs (s0.take k)
              let nome := trimJs (s0.drop (k + 1))
              let qtaParts := (trimJs s1).splitOn ' '
              let quantita := js_parseFloat (qtaParts.headD [])
              let um := qtaParts.getLastD []
              if quantita.isNaN = false ∧ truthyL um = true then
                some { codice := codice, nome := nome, um := um, quantita := quantita }
              else none
            else none
        | none => none
    | (_, none) => none
  else none

/-- `parseRigaDDT` (src/server.js lines 152-192). -/
def parseRigaDDT (rigaIn : Chars) : Option RigaDDT :=
  let riga := trimJs rigaIn
  if riga = [] then none
  else
    match pipeParse riga with
    | some x => some x
    | none => dashParse riga

/-- A parsed line of a full document, with its source text and number. -/
structure ParsedLine where
  codice : Chars
  nome : Chars
  um : Chars
  quantita : JsNum
  riga_originale : Chars
  riga_numero : Nat
deriving DecidableEq

def ParsedLine.ofRiga (x : RigaDDT) (orig : Chars) (num : Nat) : ParsedLine :=
  { codice := x.codice, nome := x.nome, um := x.um, quantita := x.quantita,
    riga_originale := orig, riga_numero := num }

/-- `parseDDTCompleto` (src/server.js lines 194-211): split on newlines,
filter out blank lines, number the remaining lines starting from 1, parse
each and drop the nulls. -/
def parseDDTCompleto (testoDDT : Chars) : List ParsedLine :=
  if truthyL testoDDT = false ∨ isBlankL testoDDT = true then []
  else
    let righe := (testoDDT.splitOn '\n').filter (fun r => isBlankL r = false)
    righe.enum.filterMap (fun p =>
      match parseRigaDDT p.2 with
      | none => none
      | some x => some (ParsedLine.ofRiga x p.2 (p.1 + 1)))

/-! ## Claim-side descriptions of the line parser (C4) -/

/-- Whitespace tokenization (maximal non-blank runs). -/
def wsTokens (l : Chars) : List Chars :=
  (List.splitOnP isJsWs l).filter (fun t => t ≠ [])

/-- C4's Grammar B exactly as the claim states it: split once on `" - "`
(the right part is the whole remainder), split the left part at the first
`'_'` into code and name, tokenize the right part on whitespace, quantity
is the float value of the first token, unit is the last token, and a record
is returned exactly when the quantity is finite and a unit token exists. -/
def specGrammarB (riga : Chars) : Option RigaDDT :=
  match breakOnSub sepDash riga with
  | (left, some right) =>
      match jsIndexOf '_' left with
      | some k =>
          match wsTokens right with
          | [] => none
          | t0 :: ts =>
              let quantita := js_parseFloat t0
              if quantita.isFinite = true then
                some { codice := left.take k, nome := left.drop (k + 1),
                       um := (t0 :: ts).getLastD [], quantita := quantita }
              else none
      | none => none
  | (_, none) => none

/-- The corrected Grammar-B description: the right part is the text between
the first and second `" - "` occurrences; the first `'_'` must occur in the
left part at a positive index; code and name are trimmed; the right part is
trimmed and split on single spaces; a record is returned exactly when the
quantity is not NaN (signed `Infinity` is accepted) and the last token is
non-empty. -/
def amendedGrammarB (riga : Chars) : Option RigaDDT :=
  match subIdx sepDash riga with
  | none => none
  | some i =>
      let left := riga.take i
      let tail1 := riga.drop (i + 3)
      let right :=
        match subIdx sepDash tail1 with
        | none => tail1
        | some j => tail1.take j
      match jsIndexOf '_' left with
      | none => none
      | some k =>
          if k = 0 then none
          else
            let toks := (trimJs right).splitOn ' '
            let q := js_parseFloat (toks.headD [])
            let u := toks.getLastD []
            if q.isNaN = false ∧ truthyL u = true then
              some { codice := trimJs (left.take k), nome := trimJs (left.drop (k + 1)),
                     um := u, quantita := q }
            else none

theorem breakOnSub_eq (sep : Chars) (hsep : sep ≠ []) : ∀ (l : Chars),
    breakOnSub sep l =
      match subIdx sep l with
      | none => (l, none)
      | some i => (l.take i, some (l.drop (i + sep.length))) := by
  intro l
  induction l with
  | nil =>
      rw [breakOnSub, subIdx, if_neg]
      intro h
      exact hsep (List.prefix_nil.mp h)
  | cons c t ih =>
      by_cases h : sep <+: (c :: t)
      · rw [breakOnSub, if_pos h, subIdx, if_pos h]
        simp
      · rw [breakOnSub, if_neg h, subIdx, if_neg h, ih]
        cases hs : subIdx sep t with
        | none => simp
        | some i => simp [Nat.add_right_comm]

theorem prefix_of_infix_nil {sep : Chars} (h : sep <:+: ([] : Chars)) : sep <+: ([] : Chars) := by
  rcases h with ⟨s, t, ht⟩
  have hs : sep = [] := by
    cases s with
    | nil => simpa using List.append_eq_nil.mp ht |>.1
    | cons a u => simp at ht
  simp [hs]

theorem subIdx_isSome_of_infix (sep : Chars) : ∀ (l : Chars), sep <:+: l →
    (subIdx sep l).isSome = true := by
  intro l
  induction l with
  | nil =>
      intro h
      rw [subIdx, if_pos (prefix_of_infix_nil h)]
      rfl
  | cons c t ih =>
      intro h
      rcases List.infix_cons_iff.mp h with h | h
      · rw [subIdx, if_pos h]; rfl
      · by_cases hp : sep <+: (c :: t)
        · rw [subIdx, if_pos hp]; rfl
        · rw [subIdx, if_neg hp]
          have hsome := ih h
          cases hs : subIdx sep t with
          | none => rw [hs] at hsome; cases hsome
          | some i => rfl

theorem pipeParse_eq_none (riga : Chars) (hp : '|' ∈ riga → (riga.splitOn '|').length ≠ 4) :
    pipeParse riga = none := by
  unfold pipeParse
  by_cases h : '|' ∈ riga
  · rw [if_pos h]
    have hl : ((riga.splitOn '|').map trimJs).length ≠ 4 := by simpa using hp h
    rcases hm : (riga.splitOn '|').map trimJs with _ | ⟨a, _ | ⟨b, _ | ⟨c, _ | ⟨d, _ | ⟨e, t⟩⟩⟩⟩⟩ <;>
      rw [hm] at hl <;> simp_all
  · rw [if_neg h]

/-- C4 counterexample: `"_X - 1 KG"` is a trimmed line containing both `'_'`
and `" - "`; the claim's procedure (split the left part at the first `'_'`,
accept when the quantity is finite and a unit token exists) yields a record
with empty code, but the source rejects any line whose first underscore is
at index 0 and returns null. -/
theorem parseRigaDDT_cex :
    ('_' ∈ chars "_X - 1 KG" ∧ sepDash <:+: chars "_X - 1 KG" ∧
      trimJs (chars "_X - 1 KG") = chars "_X - 1 KG") ∧
    specGrammarB (chars "_X - 1 KG") =
      some { codice := [], nome := chars "X", um := chars "KG", quantita := .fin 1 1 } ∧
    parseRigaDDT (chars "_X - 1 KG") = none := by
  refine ⟨by decide, by decide, by decide⟩

/-- C4 (amended): on every trimmed line that contains both `'_'` and
`" - "` and does not split into exactly four pipe fields (which Grammar A
would consume first), `parseRigaDDT` behaves exactly as the corrected
Grammar-B description `amendedGrammarB`: the right part is the text between
the first and second `" - "`, the left part must contain `'_'` at positive
index, code/name are trimmed, the trimmed right part is split on single
spaces, the first token is the quantity and the last the unit, and the line
is accepted exactly when the quantity is not NaN and the unit is
non-empty. -/
theorem parseRigaDDT_grammarB (riga : Chars)
    (htrim : trimJs riga = riga) (hu : '_' ∈ riga) (hd : sepDash <:+: riga)
    (hp : '|' ∈ riga → (riga.splitOn '|').length ≠ 4) :
    parseRigaDDT riga = amendedGrammarB riga := by
  have hne : riga ≠ [] := by
    intro he
    rw [he] at hu
    cases hu
  obtain ⟨i, hi⟩ : ∃ i, subIdx sepDash riga = some i := by
    have hsome := subIdx_isSome_of_infix sepDash riga hd
    cases hs : subIdx sepDash riga with
    | none => rw [hs] at hsome; cases hsome
    | some i => exact ⟨i, rfl⟩
  unfold parseRigaDDT
  rw [htrim, if_neg hne, pipeParse_eq_none riga hp]
  show dashParse riga = amendedGrammarB riga
  have hlen : sepDash.length = 3 := rfl
  unfold dashParse amendedGrammarB
  rw [if_pos ⟨hu, hd⟩, breakOnSub_eq sepDash (by decide) riga, hi]
  dsimp only
  rw [breakOnSub_eq sepDash (by decide) (riga.drop (i + sepDash.length)), hlen]
  cases hj : subIdx sepDash (riga.drop (i + 3)) with
  | none =>
      dsimp only
      cases hk : jsIndexOf '_' (riga.take i) with
      | none => rfl
      | some k =>
          cases k with
          | zero => simp
          | succ m => simp
  | some j =>
      dsimp only
      cases hk : jsIndexOf '_' (riga.take i) with
      | none => rfl
      | some k =>
          cases k with
          | zero => simp
          | succ m => simp

/-- C4 witness: `"A_B - 1 KG"` satisfies every hypothesis and parses to the
record predicted by the amended description. -/
theorem parseRigaDDT_grammarB_witness :
    parseRigaDDT (chars "A_B - 1 KG") = amendedGrammarB (chars "A_B - 1 KG") ∧
    parseRigaDDT (chars "A_B - 1 KG") =
      some { codice := chars "A", nome := chars "B", um := chars "KG", quantita := .fin 1 1 } :=
  ⟨parseRigaDDT_grammarB (chars "A_B - 1 KG") (by decide) (by decide) (by decide)
      (fun h => absurd h (by decide)),
   by decide⟩

/-! ## Claim-side descriptions of the document parser (C5) -/

/-- C5's document parser exactly as the claim states it: split on newlines,
discard blank lines, parse each remaining line, drop nulls, and record the
1-based position of each line in the original pre-filter document. -/
def specParseDocOriginal (testo : Chars) : List ParsedLine :=
  ((testo.splitOn '\n').enum.filter (fun p => isBlankL p.2 = false)).filterMap
    (fun p => (parseRigaDDT p.2).map (fun x => ParsedLine.ofRiga x p.2 (p.1 + 1)))

/-- The corrected description: line numbers count positions among the
non-blank lines (post-filter), not positions in the original document. -/
def specParseDocFiltered (testo : Chars) : List ParsedLine :=
  ((testo.splitOn '\n').filter (fun r => isBlankL r = false)).enum.filterMap
    (fun p => (parseRigaDDT p.2).map (fun x => ParsedLine.ofRiga x p.2 (p.1 + 1)))

/-- C5 counterexample: in the document `"\nA_B - 1 KG"` the only parsed
line sits at original line 2, but the source records `riga_numero = 1`
because the blank first line is discarded before numbering. -/
theorem parseDDTCompleto_cex :
    (parseDDTCompleto (chars "\nA_B - 1 KG")).map (fun r => r.riga_numero) = [1] ∧
    (specParseDocOriginal (chars "\nA_B - 1 KG")).map (fun r => r.riga_numero) = [2] ∧
    parseDDTCompleto (chars "\nA_B - 1 KG") ≠ specParseDocOriginal (chars "\nA_B - 1 KG") := by
  refine ⟨by decide, by decide, by decide⟩

theorem isBlankL_iff_all (l : Chars) : isBlankL l = true ↔ ∀ c ∈ l, isJsWs c = true := by
  unfold isBlankL trimJs dropTrailing
  constructor
  · intro h c hc
    by_contra hws
    have h1 : l.dropWhile isJsWs ≠ [] := by
      intro he
      rw [List.dropWhile_eq_nil_iff] at he
      exact hws (he c hc)
    have h2 : (l.dropWhile isJsWs).reverse.dropWhile isJsWs = [] := by
      have := List.isEmpty_iff.mp h
      rwa [List.reverse_eq_nil_iff] at this
    rw [List.dropWhile_eq_nil_iff] at h2
    have h3 : ∀ c ∈ l.dropWhile isJsWs, isJsWs c = true := by
      intro c hc
      exact h2 c (List.mem_reverse.mpr hc)
    have h4 := dropWhile_head_not (p := isJsWs) l h1
    exact h4 (h3 _ (List.head_mem h1))
  · intro h
    have h1 : l.dropWhile isJsWs = [] := List.dropWhile_eq_nil_iff.mpr h
    rw [h1]
    rfl

theorem mem_intersperse_of_mem (sep : Chars) :
    ∀ (L : List Chars) (l : Chars), l ∈ L → l ∈ L.intersperse sep := by
  intro L
  induction L with
  | nil => intro l h; cases h
  | cons a t ih =>
      intro l h
      cases t with
      | nil =>
          simp only [List.intersperse_singleton]
          exact h
      | cons b u =>
          rw [List.intersperse_cons₂]
          rcases List.mem_cons.mp h with h | h
          · exact h ▸ List.mem_cons_self _ _
          · exact List.mem_cons_of_mem _ (List.mem_cons_of_mem _ (ih l h))

theorem mem_of_mem_splitOn {c : Char} {r testo : Chars}
    (hr : r ∈ testo.splitOn '\n') (hc : c ∈ r) : c ∈ testo := by
  have h2 : c ∈ List.intercalate ['\n'] (testo.splitOn '\n') := by
    unfold List.intercalate
    exact List.mem_flatten_of_mem (mem_intersperse_of_mem _ _ _ hr) hc
  rwa [List.intercalate_splitOn] at h2

theorem blank_of_mem_splitOn {testo r : Chars} (hb : isBlankL testo = true)
    (hr : r ∈ testo.splitOn '\n') : isBlankL r = true := by
  rw [isBlankL_iff_all] at hb ⊢
  intro c hc
  exact hb c (mem_of_mem_splitOn hr hc)

theorem length_filterMap_enumFrom (l : List Chars) : ∀ n : Nat,
    ((List.enumFrom n l).filterMap (fun p => (parseRigaDDT p.2).map
        (fun x => ParsedLine.ofRiga x p.2 (p.1 + 1)))).length
      = l.countP (fun r => (parseRigaDDT r).isSome) := by
  induction l with
  | nil => intro n; rfl
  | cons a t ih =>
      intro n
      show (((n, a) :: List.enumFrom (n + 1) t).filterMap _).length = _
      rw [List.filterMap_cons, List.countP_cons]
      cases h : parseRigaDDT a with
      | none => simp [h, ih (n + 1)]
      | some x => simp [h, ih (n + 1)]

/-- C5 (amended): `parseDDTCompleto` splits on newlines, discards blank
lines, parses the remaining lines and drops the nulls, and numbers each
record by its 1-based position among the NON-BLANK lines (post-filter);
the number of records equals the number of non-blank lines that parse
successfully (malformed lines are dropped, never thrown). -/
theorem parseDDTCompleto_spec (testo : Chars) :
    parseDDTCompleto testo = specParseDocFiltered testo ∧
    (parseDDTCompleto testo).length =
      ((testo.splitOn '\n').filter (fun r => isBlankL r = false)).countP
        (fun r => (parseRigaDDT r).isSome) := by
  have hfun : (fun (p : Nat × Chars) =>
      match parseRigaDDT p.2 with
      | none => none
      | some x => some (ParsedLine.ofRiga x p.2 (p.1 + 1))) =
      (fun (p : Nat × Chars) => (parseRigaDDT p.2).map
        (fun x => ParsedLine.ofRiga x p.2 (p.1 + 1))) := by
    funext p
    cases parseRigaDDT p.2 with
    | none => rfl
    | some x => rfl
  have h1 : parseDDTCompleto testo = specParseDocFiltered testo := by
    by_cases hb : truthyL testo = false ∨ isBlankL testo = true
    · rw [parseDDTCompleto, if_pos hb]
      have hbt : isBlankL testo = true := by
        rcases hb with hb | hb
        · have he : testo = [] := by simpa [truthyL] using hb
          rw [he]
          rfl
        · exact hb
      have hAll : (testo.splitOn '\n').filter (fun r => isBlankL r = false) = [] := by
        rw [List.filter_eq_nil_iff]
        intro r hr
        rw [blank_of_mem_splitOn hbt hr]
        simp
      unfold specParseDocFiltered
      rw [hAll]
      rfl
    · rw [parseDDTCompleto, if_neg hb]
      unfold specParseDocFiltered
      rw [hfun]
  refine ⟨h1, ?_⟩
  rw [h1]
  unfold specParseDocFiltered
  exact length_filterMap_enumFrom _ 0

/-! ## Text Artifact Manager (src/server.js lines 216-326, first variant)

The store directory `data/negozi.json` is not part of the source tree.
Modelled from the spec: the store directory is a list of (name, code)
records; `punto_vendita` is looked up by name and unresolved lookups use
the literal code `UNKNOWN`.  All theorems are parameterized over it. -/

structure Negozio where
  nome : Chars
  codice : Chars

/-- `negozi.find(n => n.nome === puntoVendita)?.codice || 'UNKNOWN'`. -/
def codicePV (negozi : List Negozio) (puntoVendita : Chars) : Chars :=
  match negozi.find? (fun n => decide (n.nome = puntoVendita)) with
  | some n => if truthyL n.codice then n.codice else chars "UNKNOWN"
  | none => chars "UNKNOWN"

/-- The invoice snapshot consumed by `generateTxtFile`; a JS field that is
`undefined`/absent is modelled as the empty string, matching the
`|| ''` defaults applied by the source. -/
structure InvoiceData where
  numero : Chars
  data_consegna : Chars
  fornitore : Chars
  punto_vendita : Chars
  txt : Chars
  note : Chars
  item_noconv : Chars
  errori_consegna : Chars
deriving DecidableEq

/-- The three-channel error decision of src/server.js lines 253-256. -/
def hasErrorsOf (inv : InvoiceData) : Bool :=
  (truthyL inv.errori_consegna && !(isBlankL inv.errori_consegna)) ||
  (truthyL inv.note && !(isBlankL inv.note)) ||
  (truthyL inv.item_noconv && !(isBlankL inv.item_noconv))

/-- The artifact filename of src/server.js line 260
(`data_consegna` is used verbatim, not sanitized). -/
def fileNameOf (negozi : List Negozio) (inv : InvoiceData) : Chars :=
  cleanForFilename inv.numero ++ chars "_" ++ inv.data_consegna ++ chars "_" ++
  cleanForFilename inv.fornitore ++ chars "_" ++
  cleanForFilename (codicePV negozi inv.punto_vendita) ++
  (if hasErrorsOf inv then chars "_ERRORI" else []) ++ chars ".txt"

/-- A file of the artifact directory. -/
structure FsEntry where
  name : Chars
  content : Chars
deriving DecidableEq

/-- The artifact directory: a flat list of files with distinct names. -/
abbrev Dir := List FsEntry

def dirWrite (d : Dir) (n c : Chars) : Dir :=
  if d.any (fun e => decide (e.name = n)) then
    d.map (fun e => if e.name = n then ⟨n, c⟩ else e)
  else d ++ [⟨n, c⟩]

def dirErase (d : Dir) (n : Chars) : Dir :=
  d.filter (fun e => decide (¬ e.name = n))

/-- The scan predicate of src/server.js lines 269-274: a live artifact for
the sanitized invoice number. -/
def isLiveFor (numClean : Chars) (name : Chars) : Bool :=
  decide ((numClean ++ chars "_") <+: name) && decide (chars ".txt" <:+ name) &&
  !(decide (chars ".backup" <:+: name))

/-- Decimal rendering of `Date.now()` timestamps. -/
def digitChar (d : Nat) : Char := Char.ofNat (48 + d)

def natToDecAux : Nat → Nat → Chars
  | 0, _ => []
  | _ + 1, 0 => []
  | fuel + 1, n + 1 => natToDecAux fuel ((n + 1) / 10) ++ [digitChar ((n + 1) % 10)]

def natToDec (n : Nat) : Chars :=
  if n = 0 then ['0'] else natToDecAux n n

/-- Backup name `REPLACED_{oldFile}.backup.{Date.now()}` (line 283). -/
def replacedName (oldName : Chars) (now : Nat) : Chars :=
  chars "REPLACED_" ++ oldName ++ chars ".backup." ++ natToDec now

/-- Outcome of one `generateTxtFile` call: the three `throw`s of lines
232-234, the `return null` sentinel of line 238, or a written artifact with
the report object of lines 313-321. -/
inductive GenResult where
  | errNumero : GenResult
  | errData : GenResult
  | errFornitore : GenResult
  | skipped : GenResult
  | written (fileName : Chars) (size : Nat) (hasErrors : Bool) (replacedFiles : Nat) : GenResult
deriving DecidableEq

/-- `generateTxtFile` (src/server.js lines 216-326, first variant) as a
pure transformer of the artifact directory; `now` is the `Date.now()`
value used for backup names during this call. -/
def generateTxtFile (negozi : List Negozio) (inv : InvoiceData) (now : Nat) (d : Dir) :
    GenResult × Dir :=
  if truthyL inv.numero = false then (.errNumero, d)
  else if truthyL inv.data_consegna = false then (.errData, d)
  else if truthyL inv.fornitore = false then (.errFornitore, d)
  else if truthyL inv.txt = false ∨ isBlankL inv.txt = true then (.skipped, d)
  else
    let numClean := cleanForFilename inv.numero
    let fileName := fileNameOf negozi inv
    let existing := d.filter (fun e => isLiveFor numClean e.name)
    let d1 := existing.foldl
      (fun acc e => dirErase (dirWrite acc (replacedName e.name now) e.content) e.name) d
    let d2 := dirWrite d1 fileName inv.txt
    (.written fileName inv.txt.length (hasErrorsOf inv) existing.length, d2)

/-- C6 counterexample: an invoice with `numero` missing (and everything
else present) makes `generateTxtFile` throw (`Numero documento mancante`),
not return the null "skipped" sentinel; no file is written either way. -/
theorem generateTxtFile_cex :
    generateTxtFile []
      { numero := [], data_consegna := chars "2024-01-15", fornitore := chars "Acme",
        punto_vendita := [], txt := chars "D1|A|KG|5", note := [], item_noconv := [],
        errori_consegna := [] } 0 [] = (.errNumero, []) ∧
    (GenResult.errNumero ≠ GenResult.skipped) := by
  refine ⟨by decide, by decide⟩

/-- C6 (amended): blank body content yields the null "skipped" sentinel and
leaves the directory untouched, but a missing required field (`numero`,
`data_consegna`, `fornitore`) raises an error (again touching nothing);
only the blank-content case is a sentinel. -/
theorem generateTxtFile_skip_or_throw (negozi : List Negozio) (inv : InvoiceData)
    (now : Nat) (d : Dir) :
    (truthyL inv.numero = true → truthyL inv.data_consegna = true →
      truthyL inv.fornitore = true → isBlankL inv.txt = true →
      generateTxtFile negozi inv now d = (.skipped, d)) ∧
    (truthyL inv.numero = false → generateTxtFile negozi inv now d = (.errNumero, d)) ∧
    (truthyL inv.numero = true → truthyL inv.data_consegna = false →
      generateTxtFile negozi inv now d = (.errData, d)) ∧
    (truthyL inv.numero = true → truthyL inv.data_consegna = true →
      truthyL inv.fornitore = false →
      generateTxtFile negozi inv now d = (.errFornitore, d)) := by
  refine ⟨?_, ?_, ?_, ?_⟩
  · intro h1 h2 h3 h4
    unfold generateTxtFile
    rw [if_neg (by rw [h1]; intro hc; cases hc), if_neg (by rw [h2]; intro hc; cases hc),
      if_neg (by rw [h3]; intro hc; cases hc), if_pos (Or.inr h4)]
  · intro h1
    unfold generateTxtFile
    rw [if_pos h1]
  · intro h1 h2
    unfold generateTxtFile
    rw [if_neg (by rw [h1]; intro hc; cases hc), if_pos h2]
  · intro h1 h2 h3
    unfold generateTxtFile
    rw [if_neg (by rw [h1]; intro hc; cases hc), if_neg (by rw [h2]; intro hc; cases hc),
      if_pos h3]

/-- C6 witness: a blank-`txt` invoice with all required fields present is
skipped with the directory unchanged. -/
theorem generateTxtFile_skip_witness :
    generateTxtFile []
      { numero := chars "1001", data_consegna := chars "2024-01-15",
        fornitore := chars "Acme", punto_vendita := [], txt := chars "  ",
        note := [], item_noconv := [], errori_consegna := [] } 7 [] =
      (GenResult.skipped, []) :=
  (generateTxtFile_skip_or_throw [] _ 7 []).1 (by decide) (by decide) (by decide) (by decide)

/-! ### C2: the `_ERRORI` suffix -/

theorem suffix_append_left {l b : Chars} (a : Chars) (h : l <:+ b) : l <:+ a ++ b := by
  rcases h with ⟨t, ht⟩
  exact ⟨a ++ t, by rw [List.append_assoc, ht]⟩

theorem truthy_and_notBlank (s : Chars) : (truthyL s && !(isBlankL s)) = !(isBlankL s) := by
  cases s with
  | nil => rfl
  | cons a t => simp [truthyL]

/-- A filename of the shape `B ++ "_" ++ pv ++ ".txt"` can only end in
`"_ERRORI.txt"` when the store-code part `pv` ends in `"ERRORI"`. -/
theorem not_ERRORI_suffix (B pv : Chars) (hpv : ¬ chars "ERRORI" <:+ pv) :
    ¬ chars "_ERRORI.txt" <:+ (B ++ '_' :: (pv ++ chars ".txt")) := by
  intro hsfx
  have hpre : (chars "_ERRORI.txt").reverse <+: (B ++ '_' :: (pv ++ chars ".txt")).reverse :=
    List.reverse_prefix.mpr hsfx
  have hrev : (B ++ '_' :: (pv ++ chars ".txt")).reverse =
      chars "txt." ++ (pv.reverse ++ ('_' :: B.reverse)) := by
    have hd : chars ".txt" = ['.', 't', 'x', 't'] := rfl
    have he : chars "txt." = ['t', 'x', 't', '.'] := rfl
    rw [hd, he]
    simp
  have hE : (chars "_ERRORI.txt").reverse = chars "txt." ++ chars "IRORRE_" := by decide
  rw [hE, hrev] at hpre
  have hpre2 : chars "IRORRE_" <+: pv.reverse ++ ('_' :: B.reverse) := by
    rcases hpre with ⟨t, ht⟩
    rw [List.append_assoc] at ht
    exact ⟨t, List.append_cancel_left ht⟩
  have h7 : chars "IRORRE_" = (pv.reverse ++ ('_' :: B.reverse)).take 7 := by
    have h := List.prefix_iff_eq_take.mp hpre2
    simpa using h
  rw [List.take_append_eq_append_take] at h7
  have hERR : ¬ pv.reverse = chars "IRORRE" := by
    intro he
    apply hpv
    have : pv = chars "ERRORI" := by
      have := congrArg List.reverse he
      simpa using this
    rw [this]
  by_cases hk : 7 ≤ pv.reverse.length
  · rw [Nat.sub_eq_zero_of_le hk] at h7
    simp only [List.take_zero, List.append_nil] at h7
    apply hpv
    have h6 : chars "IRORRE" = pv.reverse.take 6 := by
      have := congrArg (List.take 6) h7
      rw [List.take_take] at this
      simpa using this
    have h6' : (chars "ERRORI").reverse <+: pv.reverse := by
      rw [show (chars "ERRORI").reverse = chars "IRORRE" by decide]
      exact List.prefix_iff_eq_take.mpr (by simpa using h6)
    exact List.reverse_prefix.mp h6'
  · push_neg at hk
    rw [List.take_of_length_le (Nat.le_of_lt hk)] at h7
    have hel : (chars "IRORRE_")[pv.reverse.length]? = some '_' := by
      rw [h7, List.getElem?_append_right (Nat.le_refl _)]
      have h1 : ∃ m, 7 - pv.reverse.length = m + 1 := ⟨7 - pv.reverse.length - 1, by omega⟩
      rcases h1 with ⟨m, hm⟩
      rw [hm, List.take_succ_cons]
      simp
    obtain ⟨k, hkeq⟩ : ∃ k, pv.reverse.length = k := ⟨_, rfl⟩
    rw [hkeq] at h7 hel hk
    interval_cases k
    · exact absurd hel (by decide)
    · exact absurd hel (by decide)
    · exact absurd hel (by decide)
    · exact absurd hel (by decide)
    · exact absurd hel (by decide)
    · exact absurd hel (by decide)
    · apply hERR
      have h1 : ('_' :: B.reverse).take (7 - 6) = ['_'] := rfl
      rw [h1] at h7
      have h2 := congrArg (List.take 6) h7
      rw [show (chars "IRORRE_").take 6 = chars "IRORRE" from rfl] at h2
      rw [← hkeq, List.take_left] at h2
      exact h2.symm

theorem chars_underscore : chars "_" = ['_'] := rfl

theorem chars_ERRORItxt : chars "_ERRORI" ++ chars ".txt" = chars "_ERRORI.txt" := rfl

/-- C2: for every invoice snapshot (over any store directory whose cleaned
store code does not end in `"ERRORI"`), the reported `hasErrors` flag is
the disjunction of the three error channels being non-blank, the generated
filename ends in `"_ERRORI.txt"` exactly when that disjunction holds, and
every `written` outcome of `generateTxtFile` reports exactly this filename
and flag. -/
theorem generateTxtFile_errorSuffix (negozi : List Negozio) (inv : InvoiceData)
    (hpv : ¬ chars "ERRORI" <:+ cleanForFilename (codicePV negozi inv.punto_vendita)) :
    (hasErrorsOf inv = true ↔
      (isBlankL inv.errori_consegna = false ∨ isBlankL inv.note = false ∨
        isBlankL inv.item_noconv = false)) ∧
    (chars "_ERRORI.txt" <:+ fileNameOf negozi inv ↔ hasErrorsOf inv = true) ∧
    (∀ now d f s h r, (generateTxtFile negozi inv now d).1 = .written f s h r →
      f = fileNameOf negozi inv ∧ h = hasErrorsOf inv) := by
  refine ⟨?_, ⟨?_, ?_⟩, ?_⟩
  · unfold hasErrorsOf
    rw [truthy_and_notBlank, truthy_and_notBlank, truthy_and_notBlank]
    simp only [Bool.or_eq_true, Bool.not_eq_true']
    tauto
  · intro hsuf
    by_contra hfalse
    have hf : hasErrorsOf inv = false := by
      cases h : hasErrorsOf inv with
      | true => exact absurd h hfalse
      | false => rfl
    have hshape : fileNameOf negozi inv =
        (cleanForFilename inv.numero ++ chars "_" ++ inv.data_consegna ++ chars "_" ++
          cleanForFilename inv.fornitore) ++
        '_' :: (cleanForFilename (codicePV negozi inv.punto_vendita) ++ chars ".txt") := by
      unfold fileNameOf
      simp [hf, chars_underscore, List.append_assoc]
    rw [hshape] at hsuf
    exact not_ERRORI_suffix _ _ hpv hsuf
  · intro htrue
    have hshape : fileNameOf negozi inv =
        (cleanForFilename inv.numero ++ chars "_" ++ inv.data_consegna ++ chars "_" ++
          cleanForFilename inv.fornitore ++ chars "_" ++
          cleanForFilename (codicePV negozi inv.punto_vendita)) ++ chars "_ERRORI.txt" := by
      unfold fileNameOf
      simp [htrue, chars_ERRORItxt, List.append_assoc]
    rw [hshape]
    exact List.suffix_append _ _
  · intro now d f s h r hw
    unfold generateTxtFile at hw
    by_cases h1 : truthyL inv.numero = false
    · rw [if_pos h1] at hw
      cases hw
    · rw [if_neg h1] at hw
      by_cases h2 : truthyL inv.data_consegna = false
      · rw [if_pos h2] at hw
        cases hw
      · rw [if_neg h2] at hw
        by_cases h3 : truthyL inv.fornitore = false
        · rw [if_pos h3] at hw
          cases hw
        · rw [if_neg h3] at hw
          by_cases h4 : truthyL inv.txt = false ∨ isBlankL inv.txt = true
          · rw [if_pos h4] at hw
            cases hw
          · rw [if_neg h4] at hw
            dsimp only at hw
            rw [GenResult.written.injEq] at hw
            exact ⟨hw.1.symm, hw.2.2.1.symm⟩

/-- C2 witness: the "Box damaged" note of spec scenario B turns on the
suffix for the scenario-A invoice, and the flag matches. -/
theorem generateTxtFile_errorSuffix_witness :
    chars "_ERRORI.txt" <:+
      fileNameOf [{ nome := chars "Store X", codice := chars "GEC" }]
        { numero := chars "1001", data_consegna := chars "2024-01-15",
          fornitore := chars "Acme", punto_vendita := chars "Store X",
          txt := chars "D1|A|KG|5", note := chars "Box damaged", item_noconv := [],
          errori_consegna := [] } :=
  ((generateTxtFile_errorSuffix
      [{ nome := chars "Store X", codice := chars "GEC" }] _ (by decide)).2.1).mpr (by decide)

/-! ### C3: replace-with-backup protocol -/

theorem digitChar_toNat {d : Nat} (h : d < 10) : (digitChar d).toNat = 48 + d := by
  interval_cases d <;> decide

theorem natFromDigits_append_one (a : Chars) (c : Char) :
    natFromDigits (a ++ [c]) = natFromDigits a * 10 + (c.toNat - 48) := by
  unfold natFromDigits
  rw [List.foldl_append]
  rfl

theorem natFromDigits_natToDecAux : ∀ (fuel n : Nat), n ≤ fuel →
    natFromDigits (natToDecAux fuel n) = n := by
  intro fuel
  induction fuel with
  | zero => intro n hn; interval_cases n; rfl
  | succ f ih =>
      intro n hn
      cases n with
      | zero => rfl
      | succ m =>
          rw [natToDecAux, natFromDigits_append_one,
            ih ((m + 1) / 10) (by omega),
            digitChar_toNat (Nat.mod_lt _ (by omega))]
          omega

/-- Reading back the decimal rendering recovers the number. -/
theorem natFromDigits_natToDec (n : Nat) : natFromDigits (natToDec n) = n := by
  unfold natToDec
  by_cases h0 : n = 0
  · rw [if_pos h0, h0]
    rfl
  · rw [if_neg h0]
    exact natFromDigits_natToDecAux n n (le_refl n)

theorem natToDec_inj {n m : Nat} (h : natToDec n = natToDec m) : n = m := by
  have := congrArg natFromDigits h
  rwa [natFromDigits_natToDec, natFromDigits_natToDec] at this

theorem digitChar_isDigit {d : Nat} (h : d < 10) : (digitChar d).isDigit = true := by
  interval_cases d <;> decide

theorem natToDecAux_digits : ∀ (fuel n : Nat), ∀ c ∈ natToDecAux fuel n,
    c.isDigit = true := by
  intro fuel
  induction fuel with
  | zero => intro n c hc; cases hc
  | succ f ih =>
      intro n c hc
      cases n with
      | zero => cases hc
      | succ m =>
          rw [natToDecAux] at hc
          rcases List.mem_append.mp hc with hc | hc
          · exact ih _ c hc
          · rcases List.mem_singleton.mp hc with rfl
            exact digitChar_isDigit (Nat.mod_lt _ (by omega))

/-- Every character of a decimal rendering is an ASCII digit. -/
theorem natToDec_digits {n : Nat} : ∀ c ∈ natToDec n, c.isDigit = true := by
  unfold natToDec
  by_cases h0 : n = 0
  · rw [if_pos h0]
    intro c hc
    rcases List.mem_singleton.mp hc with rfl
    decide
  · rw [if_neg h0]
    exact natToDecAux_digits n n

theorem takeWhile_append_all {p : Char → Bool} {a : Chars} (b : Chars)
    (h : ∀ c ∈ a, p c = true) : (a ++ b).takeWhile p = a ++ b.takeWhile p := by
  induction a with
  | nil => rfl
  | cons c t ih =>
      rw [List.cons_append, List.takeWhile_cons, if_pos (h c (List.mem_cons_self _ _)),
        ih (fun x hx => h x (List.mem_cons_of_mem _ hx))]
      rfl

/-- The digit run at the end of a backup name is exactly the timestamp. -/
theorem replacedName_digit_tail (f : Chars) (k : Nat) :
    (replacedName f k).reverse.takeWhile Char.isDigit = (natToDec k).reverse := by
  unfold replacedName
  have hrev : (chars "REPLACED_" ++ f ++ chars ".backup." ++ natToDec k).reverse =
      (natToDec k).reverse ++
        ('.' :: (chars "pukcab." ++ (f.reverse ++ (chars "REPLACED_").reverse))) := by
    simp only [List.reverse_append, List.append_assoc]
    rw [show (chars ".backup.").reverse = '.' :: chars "pukcab." from by decide]
    simp
  rw [hrev, takeWhile_append_all _ (fun c hc => natToDec_digits c (List.mem_reverse.mp hc))]
  rw [List.takeWhile_cons, if_neg (by decide)]
  simp

/-- Backups written at distinct timestamps have distinct names. -/
theorem replacedName_ne_of_ne {f g : Chars} {n m : Nat} (hnm : ¬ n = m) :
    ¬ replacedName f n = replacedName g m := by
  intro h
  apply hnm
  apply natToDec_inj
  have h1 := congrArg (fun l => (List.reverse l).takeWhile Char.isDigit) h
  simp only at h1
  rw [replacedName_digit_tail, replacedName_digit_tail] at h1
  have := congrArg List.reverse h1
  simpa using this

/-- Backups of files with distinct names have distinct names. -/
theorem replacedName_inj_name {f g : Chars} {n : Nat}
    (h : replacedName f n = replacedName g n) : f = g := by
  unfold replacedName at h
  exact List.append_cancel_left (List.append_cancel_right (List.append_cancel_right h))

/-- A `REPLACED_…` backup file for the given sanitized invoice number. -/
def isRepBackup (numClean : Chars) (name : Chars) : Bool :=
  decide ((chars "REPLACED_" ++ numClean ++ chars "_") <+: name) &&
  decide (chars ".backup" <:+: name)

theorem infix_backup_replacedName (f : Chars) (t : Nat) :
    chars ".backup" <:+: replacedName f t := by
  refine ⟨chars "REPLACED_" ++ f, '.' :: natToDec t, ?_⟩
  unfold replacedName
  rw [show chars ".backup." = chars ".backup" ++ ['.'] from rfl]
  simp [List.append_assoc]

theorem isLiveFor_replacedName (numClean f : Chars) (t : Nat) :
    isLiveFor numClean (replacedName f t) = false := by
  unfold isLiveFor
  rw [decide_eq_true (infix_backup_replacedName f t)]
  simp

theorem not_rep_of_live {numClean n : Chars} (h : isLiveFor numClean n = true) :
    isRepBackup numClean n = false := by
  unfold isLiveFor at h
  unfold isRepBackup
  simp only [Bool.and_eq_true, Bool.not_eq_true', decide_eq_false_iff_not,
    decide_eq_true_eq] at h
  rcases h with ⟨⟨-, -⟩, hnb⟩
  simp only [Bool.and_eq_false_iff, decide_eq_false_iff_not]
  exact Or.inr hnb

theorem rep_replacedName_of_live {numClean old : Chars} (t : Nat)
    (h : isLiveFor numClean old = true) :
    isRepBackup numClean (replacedName old t) = true := by
  unfold isLiveFor at h
  simp only [Bool.and_eq_true, decide_eq_true_eq] at h
  rcases h with ⟨⟨hpre, -⟩, -⟩
  unfold isRepBackup
  rw [decide_eq_true (infix_backup_replacedName old t)]
  rw [decide_eq_true ?hp]
  case hp =>
    rcases hpre with ⟨u, hu⟩
    refine ⟨u ++ chars ".backup." ++ natToDec t, ?_⟩
    unfold replacedName
    rw [← hu]
    simp [List.append_assoc]
  rfl

theorem dirWrite_append {d : Dir} {n : Chars} (c : Chars) (h : ∀ a ∈ d, ¬ a.name = n) :
    dirWrite d n c = d ++ [⟨n, c⟩] := by
  unfold dirWrite
  rw [if_neg]
  intro hany
  rcases List.any_eq_true.mp hany with ⟨a, ha, hn⟩
  exact h a ha (of_decide_eq_true hn)

theorem dirErase_append_single {d : Dir} {x : FsEntry} {n : Chars} (h : ¬ x.name = n) :
    dirErase (d ++ [x]) n = dirErase d n ++ [x] := by
  unfold dirErase
  rw [List.filter_append]
  congr 1
  simp [h]

theorem dirErase_eq_filter (d : Dir) (n : Chars) :
    dirErase d n = d.filter (fun e => decide (¬ e.name = n)) := rfl

/-- The backup pass of `generateTxtFile` (lines 279-289): every scanned
entry is copied to a fresh backup name and then deleted; the result is the
non-scanned entries followed by the backups in scan order. -/
theorem foldBackup_eq (now : Nat) :
    ∀ (xs : List FsEntry) (acc : Dir),
    ((xs.map (fun e => e.name)).Nodup) →
    (∀ e ∈ xs, ¬ chars ".backup" <:+: e.name) →
    (∀ e ∈ xs, ∀ a ∈ acc, ¬ a.name = replacedName e.name now) →
    xs.foldl (fun acc e => dirErase (dirWrite acc (replacedName e.name now) e.content) e.name) acc
      = acc.filter (fun a => decide (a.name ∉ xs.map (fun e => e.name)))
        ++ xs.map (fun e => ⟨replacedName e.name now, e.content⟩) := by
  intro xs
  induction xs with
  | nil =>
      intro acc _ _ _
      simp
  | cons e rest ih =>
      intro acc hnodup hnb hfresh
      rw [List.foldl_cons]
      have hbw : dirWrite acc (replacedName e.name now) e.content =
          acc ++ [⟨replacedName e.name now, e.content⟩] :=
        dirWrite_append _ (fun a ha => hfresh e (List.mem_cons_self _ _) a ha)
      have hbne : ¬ (⟨replacedName e.name now, e.content⟩ : FsEntry).name = e.name := by
        intro hx
        exact hnb e (List.mem_cons_self _ _) (hx ▸ infix_backup_replacedName e.name now)
      rw [hbw, dirErase_append_single hbne, ih]
      · rw [dirErase_eq_filter, List.filter_append, List.filter_filter]
        have hkeep : List.filter (fun a => decide (a.name ∉ rest.map (fun e => e.name)))
            [(⟨replacedName e.name now, e.content⟩ : FsEntry)] =
            [⟨replacedName e.name now, e.content⟩] := by
          have hnotin : (⟨replacedName e.name now, e.content⟩ : FsEntry).name ∉
              rest.map (fun e => e.name) := by
            intro hmem
            rcases List.mem_map.mp hmem with ⟨x, hx, hxe⟩
            exact hnb x (List.mem_cons_of_mem _ hx)
              (hxe ▸ infix_backup_replacedName e.name now)
          have hd : decide ((⟨replacedName e.name now, e.content⟩ : FsEntry).name ∉
              rest.map (fun e => e.name)) = true := decide_eq_true hnotin
          rw [List.filter_singleton, hd]
          rfl
        rw [hkeep]
        have hps : ∀ a : FsEntry,
            ((decide (a.name ∉ rest.map (fun e => e.name))) &&
              (decide (¬ a.name = e.name))) =
            decide (a.name ∉ (e :: rest).map (fun e => e.name)) := by
          intro a
          by_cases h1 : a.name = e.name
          · simp [h1]
          · by_cases h2 : a.name ∈ rest.map (fun e => e.name)
            · simp [h1, h2]
            · simp [h1, h2]
        simp only [hps]
        simp [List.append_assoc]
      · exact (List.nodup_cons.mp hnodup).2
      · exact fun x hx => hnb x (List.mem_cons_of_mem _ hx)
      · intro x hx a ha
        rcases List.mem_append.mp ha with ha | ha
        · rcases List.mem_filter.mp ha with ⟨ha, -⟩
          exact hfresh x (List.mem_cons_of_mem _ hx) a ha
        · rcases List.mem_singleton.mp ha with rfl
          intro hx2
          have heq := replacedName_inj_name hx2
          have hmem : e.name ∈ rest.map (fun e => e.name) := by
            rw [heq]
            exact List.mem_map_of_mem (fun e => e.name) hx
          exact (List.nodup_cons.mp hnodup).1 hmem

theorem isLiveFor_fileNameOf (negozi : List Negozio) (inv : InvoiceData)
    (hnb : ¬ chars ".backup" <:+: fileNameOf negozi inv) :
    isLiveFor (cleanForFilename inv.numero) (fileNameOf negozi inv) = true := by
  unfold isLiveFor
  have hpre : (cleanForFilename inv.numero ++ chars "_") <+: fileNameOf negozi inv := by
    have hsh : fileNameOf negozi inv = (cleanForFilename inv.numero ++ chars "_") ++
        (inv.data_consegna ++ chars "_" ++ cleanForFilename inv.fornitore ++ chars "_" ++
          cleanForFilename (codicePV negozi inv.punto_vendita) ++
          (if hasErrorsOf inv then chars "_ERRORI" else []) ++ chars ".txt") := by
      unfold fileNameOf
      simp [List.append_assoc]
    rw [hsh]
    exact List.prefix_append _ _
  have hsfx : chars ".txt" <:+ fileNameOf negozi inv := List.suffix_append _ _
  rw [decide_eq_true hpre, decide_eq_true hsfx, decide_eq_false hnb]
  rfl

/-- Effect of one successful `generateTxtFile` call on the directory:
the live artifacts are backed up and removed, and the new artifact is
appended. -/
theorem generateTxtFile_dir (negozi : List Negozio) (inv : InvoiceData) (now : Nat) (d : Dir)
    (h1 : truthyL inv.numero = true) (h2 : truthyL inv.data_consegna = true)
    (h3 : truthyL inv.fornitore = true) (h4 : isBlankL inv.txt = false)
    (hnb : ¬ chars ".backup" <:+: fileNameOf negozi inv)
    (hnodup : (d.map (fun e => e.name)).Nodup)
    (hfresh : ∀ e ∈ d.filter (fun e => isLiveFor (cleanForFilename inv.numero) e.name),
        ∀ a ∈ d, ¬ a.name = replacedName e.name now) :
    (generateTxtFile negozi inv now d).2 =
      (d.filter (fun a => decide (a.name ∉
        (d.filter (fun e => isLiveFor (cleanForFilename inv.numero) e.name)).map
          (fun e => e.name)))
      ++ (d.filter (fun e => isLiveFor (cleanForFilename inv.numero) e.name)).map
          (fun e => ⟨replacedName e.name now, e.content⟩))
      ++ [⟨fileNameOf negozi inv, inv.txt⟩] := by
  have htxt : truthyL inv.txt = true := by
    cases ht : inv.txt with
    | nil => rw [ht] at h4; cases h4
    | cons a t => rfl
  unfold generateTxtFile
  rw [if_neg (by rw [h1]; intro hc; cases hc), if_neg (by rw [h2]; intro hc; cases hc),
    if_neg (by rw [h3]; intro hc; cases hc),
    if_neg (by rw [htxt, h4]; rintro (hc | hc) <;> cases hc)]
  dsimp only
  have hnods : ((d.filter (fun e => isLiveFor (cleanForFilename inv.numero) e.name)).map
      (fun e => e.name)).Nodup :=
    ((List.filter_sublist d).map (fun e => e.name)).nodup hnodup
  have hnbs : ∀ e ∈ d.filter (fun e => isLiveFor (cleanForFilename inv.numero) e.name),
      ¬ chars ".backup" <:+: e.name := by
    intro e he
    have hl := (List.mem_filter.mp he).2
    unfold isLiveFor at hl
    simp only [Bool.and_eq_true, Bool.not_eq_true', decide_eq_false_iff_not,
      decide_eq_true_eq] at hl
    exact hl.2
  rw [foldBackup_eq now _ d hnods hnbs hfresh]
  apply dirWrite_append
  intro a ha
  rcases List.mem_append.mp ha with ha | ha
  · rcases List.mem_filter.mp ha with ⟨had, hanot⟩
    intro he
    have halive : isLiveFor (cleanForFilename inv.numero) a.name = true := by
      rw [he]
      exact isLiveFor_fileNameOf negozi inv hnb
    have : a.name ∈ (d.filter (fun e => isLiveFor (cleanForFilename inv.numero) e.name)).map
        (fun e => e.name) :=
      List.mem_map_of_mem _ (List.mem_filter.mpr ⟨had, halive⟩)
    exact (of_decide_eq_true hanot) this
  · rcases List.mem_map.mp ha with ⟨e, he, rfl⟩
    intro hx
    exact hnb (hx ▸ infix_backup_replacedName e.name now)

/-- Iterated `generateTxtFile` calls (invoice snapshot and `Date.now()`
timestamp per call). -/
def genRuns (negozi : List Negozio) : List (InvoiceData × Nat) → Dir → Dir
  | [], d => d
  | (inv, t) :: rest, d => genRuns negozi rest (generateTxtFile negozi inv t d).2

theorem entry_eq_of_name_eq : ∀ {d : Dir}, (d.map (fun e => e.name)).Nodup →
    ∀ {a b : FsEntry}, a ∈ d → b ∈ d → a.name = b.name → a = b := by
  intro d
  induction d with
  | nil => intro _ a b ha; cases ha
  | cons x t ih =>
      intro hnodup a b ha hb hn
      rw [List.map_cons] at hnodup
      have hx := List.nodup_cons.mp hnodup
      rcases List.mem_cons.mp ha with ha | ha <;> rcases List.mem_cons.mp hb with hb | hb
      · rw [ha, hb]
      · exfalso
        apply hx.1
        have : x.name = b.name := by rw [← ha, hn]
        rw [this]
        exact List.mem_map_of_mem (fun e => e.name) hb
      · exfalso
        apply hx.1
        have : x.name = a.name := by rw [← hb, hn]
        rw [this]
        exact List.mem_map_of_mem (fun e => e.name) ha
      · exact ih hx.2 ha hb hn

/-- C3 master invariant: over any sequence of successful calls for the same
sanitized invoice number, with strictly increasing timestamps, filenames
free of `".backup"` and a directory whose pre-existing `REPLACED` backups
are older than every call: names stay distinct, the `REPLACED` backup count
grows by (initial live count) + (number of calls − 1), and exactly the last
call's artifact is live. -/
theorem genRuns_spec (negozi : List Negozio) (numClean : Chars) :
    ∀ (calls : List (InvoiceData × Nat)) (d : Dir),
    (∀ p ∈ calls, cleanForFilename (p.1).numero = numClean) →
    (∀ p ∈ calls, truthyL (p.1).numero = true ∧ truthyL (p.1).data_consegna = true ∧
      truthyL (p.1).fornitore = true ∧ isBlankL (p.1).txt = false) →
    (∀ p ∈ calls, ¬ chars ".backup" <:+: fileNameOf negozi p.1) →
    ((calls.map (fun p => p.2)).Pairwise (· < ·)) →
    ((d.map (fun e => e.name)).Nodup) →
    (∀ a ∈ d, isRepBackup numClean a.name = true →
      ∃ f u, a.name = replacedName f u ∧ ∀ p ∈ calls, u < p.2) →
    (((genRuns negozi calls d).map (fun e => e.name)).Nodup) ∧
    (calls = [] → genRuns negozi calls d = d) ∧
    (¬ calls = [] →
      (genRuns negozi calls d).countP (fun e => isRepBackup numClean e.name) =
        d.countP (fun e => isRepBackup numClean e.name) +
          (d.filter (fun e => isLiveFor numClean e.name)).length + (calls.length - 1)) ∧
    (∀ q, calls.getLast? = some q →
      (genRuns negozi calls d).filter (fun e => isLiveFor numClean e.name) =
        [⟨fileNameOf negozi q.1, (q.1).txt⟩]) := by
  intro calls
  induction calls with
  | nil =>
      intro d _ _ _ _ hnodup _
      refine ⟨hnodup, fun _ => rfl, fun hne => absurd rfl hne, fun q hq => ?_⟩
      cases hq
  | cons p rest ih =>
      obtain ⟨inv, t⟩ := p
      intro d hnumC hgood hnb hts hnodup hrep
      have hcn : cleanForFilename inv.numero = numClean :=
        hnumC (inv, t) (List.mem_cons_self _ _)
      obtain ⟨h1, h2, h3, h4⟩ := hgood (inv, t) (List.mem_cons_self _ _)
      have hnb0 : ¬ chars ".backup" <:+: fileNameOf negozi inv :=
        hnb (inv, t) (List.mem_cons_self _ _)
      have hfr : ∀ e ∈ d.filter (fun e => isLiveFor (cleanForFilename inv.numero) e.name),
          ∀ a ∈ d, ¬ a.name = replacedName e.name t := by
        simp only [hcn]
        intro e he a ha heq
        have hlive := (List.mem_filter.mp he).2
        have hrepa : isRepBackup numClean a.name = true := by
          rw [heq]
          exact rep_replacedName_of_live t hlive
        rcases hrep a ha hrepa with ⟨f, u, hfu, hub⟩
        have hut : u < t := hub (inv, t) (List.mem_cons_self _ _)
        rw [hfu] at heq
        exact replacedName_ne_of_ne (Nat.ne_of_lt hut) heq
      have hd' := generateTxtFile_dir negozi inv t d h1 h2 h3 h4 hnb0 hnodup hfr
      simp only [hcn] at hd'
      -- abbreviations for the three parts of the new directory
      have hlivenew : isLiveFor numClean (fileNameOf negozi inv) = true := by
        rw [← hcn]
        exact isLiveFor_fileNameOf negozi inv hnb0
      have hrepnew : isRepBackup numClean (fileNameOf negozi inv) = false :=
        not_rep_of_live hlivenew
      have hmemL : ∀ e ∈ d.filter (fun e => isLiveFor numClean e.name),
          e ∈ d ∧ isLiveFor numClean e.name = true :=
        fun e he => List.mem_filter.mp he
      -- (N3) the live entries of the new directory
      have hN3 : (generateTxtFile negozi inv t d).2.filter
          (fun e => isLiveFor numClean e.name) = [⟨fileNameOf negozi inv, inv.txt⟩] := by
        rw [hd', List.filter_append, List.filter_append]
        have hA : (d.filter (fun a => decide (a.name ∉
            (d.filter (fun e => isLiveFor numClean e.name)).map (fun e => e.name)))).filter
            (fun e => isLiveFor numClean e.name) = [] := by
          rw [List.filter_eq_nil_iff]
          intro a ha hl
          rcases List.mem_filter.mp ha with ⟨had, hanot⟩
          exact (of_decide_eq_true hanot)
            (List.mem_map_of_mem _ (List.mem_filter.mpr ⟨had, hl⟩))
        have hB : ((d.filter (fun e => isLiveFor numClean e.name)).map
            (fun e => (⟨replacedName e.name t, e.content⟩ : FsEntry))).filter
            (fun e => isLiveFor numClean e.name) = [] := by
          rw [List.filter_eq_nil_iff]
          intro a ha hl
          rcases List.mem_map.mp ha with ⟨e, he, rfl⟩
          rw [isLiveFor_replacedName] at hl
          cases hl
        rw [hA, hB]
        simp [hlivenew]
      -- (N2) the REPLACED backup count of the new directory
      have hN2 : (generateTxtFile negozi inv t d).2.countP
          (fun e => isRepBackup numClean e.name) =
          d.countP (fun e => isRepBackup numClean e.name) +
            (d.filter (fun e => isLiveFor numClean e.name)).length := by
        rw [hd', List.countP_append, List.countP_append]
        have hA : (d.filter (fun a => decide (a.name ∉
            (d.filter (fun e => isLiveFor numClean e.name)).map
              (fun e => e.name)))).countP (fun e => isRepBackup numClean e.name) =
            d.countP (fun e => isRepBackup numClean e.name) := by
          rw [List.countP_filter]
          apply List.countP_congr
          intro a ha
          constructor
          · intro hc
            exact (Bool.and_eq_true _ _).mp hc |>.1
          · intro hc
            rw [hc]
            simp only [Bool.true_and]
            apply decide_eq_true
            intro hmem
            rcases List.mem_map.mp hmem with ⟨e, he, hne⟩
            rcases List.mem_filter.mp he with ⟨hed, hel⟩
            have : e = a := entry_eq_of_name_eq hnodup hed ha hne
            rw [this] at hel
            rw [not_rep_of_live hel] at hc
            cases hc
        have hB : ((d.filter (fun e => isLiveFor numClean e.name)).map
            (fun e => (⟨replacedName e.name t, e.content⟩ : FsEntry))).countP
              (fun e => isRepBackup numClean e.name) =
            (d.filter (fun e => isLiveFor numClean e.name)).length := by
          rw [List.countP_eq_length.mpr, List.length_map]
          intro a ha
          rcases List.mem_map.mp ha with ⟨e, he, rfl⟩
          exact rep_replacedName_of_live t (hmemL e he).2
        rw [hA, hB]
        simp [hrepnew]
      -- (N1) names stay distinct
      have hN1 : ((generateTxtFile negozi inv t d).2.map (fun e => e.name)).Nodup := by
        rw [hd']
        rw [List.map_append, List.map_append]
        rw [List.nodup_append]
        refine ⟨?_, by simp, ?_⟩
        · rw [List.nodup_append]
          refine ⟨?_, ?_, ?_⟩
          · exact ((List.filter_sublist d).map (fun e => e.name)).nodup hnodup
          · rw [List.map_map]
            have : ((fun e => e.name) ∘ fun e =>
                (⟨replacedName e.name t, e.content⟩ : FsEntry)) =
                (fun n => replacedName n t) ∘ (fun (e : FsEntry) => e.name) := rfl
            rw [this, ← List.map_map]
            apply List.Nodup.map
            · intro x y hxy
              exact replacedName_inj_name hxy
            · exact ((List.filter_sublist d).map (fun e => e.name)).nodup hnodup
          · intro n hnA hnB
            rcases List.mem_map.mp hnA with ⟨a, ha, rfl⟩
            rcases List.mem_map.mp hnB with ⟨b, hb, hbn⟩
            rcases List.mem_map.mp hb with ⟨e, he, rfl⟩
            have had := (List.mem_filter.mp ha).1
            have hfr2 := hfr e (by simpa [hcn] using he) a had
            exact hfr2 hbn.symm
        · intro n hn hn2
          have hnf : n = fileNameOf negozi inv := by
            simpa using hn2
          rcases List.mem_append.mp hn with hn | hn
          · rcases List.mem_map.mp hn with ⟨a, ha, han⟩
            rcases List.mem_filter.mp ha with ⟨had, hanot⟩
            have hlA : isLiveFor numClean a.name = true := by
              rw [han, hnf]
              exact hlivenew
            exact (of_decide_eq_true hanot)
              (List.mem_map_of_mem _ (List.mem_filter.mpr ⟨had, hlA⟩))
          · rcases List.mem_map.mp hn with ⟨b, hb, hbn⟩
            rcases List.mem_map.mp hb with ⟨e, he, rfl⟩
            have hbk : chars ".backup" <:+: n := by
              rw [← hbn]
              exact infix_backup_replacedName e.name t
            rw [hnf] at hbk
            exact hnb0 hbk
      -- (N4) pre-existing and new backups are older than the remaining calls
      have hN4 : ∀ a ∈ (generateTxtFile negozi inv t d).2,
          isRepBackup numClean a.name = true →
          ∃ f u, a.name = replacedName f u ∧ ∀ p ∈ rest, u < p.2 := by
        have htlt : ∀ p ∈ rest, t < p.2 := by
          rw [List.map_cons, List.pairwise_cons] at hts
          intro p hp
          exact hts.1 p.2 (List.mem_map_of_mem _ hp)
        intro a ha harep
        rw [hd'] at ha
        rcases List.mem_append.mp ha with ha | ha
        · rcases List.mem_append.mp ha with ha | ha
          · have had := (List.mem_filter.mp ha).1
            rcases hrep a had harep with ⟨f, u, hfu, hub⟩
            exact ⟨f, u, hfu, fun p hp => hub p (List.mem_cons_of_mem _ hp)⟩
          · rcases List.mem_map.mp ha with ⟨e, he, rfl⟩
            exact ⟨e.name, t, rfl, htlt⟩
        · rcases List.mem_singleton.mp ha with rfl
          rw [hrepnew] at harep
          cases harep
      -- apply the induction hypothesis to the remaining calls
      have hih := ih (generateTxtFile negozi inv t d).2
        (fun p hp => hnumC p (List.mem_cons_of_mem _ hp))
        (fun p hp => hgood p (List.mem_cons_of_mem _ hp))
        (fun p hp => hnb p (List.mem_cons_of_mem _ hp))
        (by rw [List.map_cons, List.pairwise_cons] at hts; exact hts.2)
        hN1 hN4
      obtain ⟨hihN, hihE, hihC, hihL⟩ := hih
      refine ⟨?_, fun hc => absurd hc (by intro hc2; cases hc2), ?_, ?_⟩
      · show ((genRuns negozi ((inv, t) :: rest) d).map (fun e => e.name)).Nodup
        rw [genRuns]
        exact hihN
      · intro _
        show (genRuns negozi ((inv, t) :: rest) d).countP _ = _
        rw [genRuns]
        cases rest with
        | nil =>
            rw [hihE rfl, hN2]
            simp
        | cons q r2 =>
            rw [hihC (by intro hc; cases hc), hN2, hN3]
            simp only [List.length_cons, List.length_nil]
            omega
      · intro q hq
        show (genRuns negozi ((inv, t) :: rest) d).filter _ = _
        rw [genRuns]
        cases rest with
        | nil =>
            have hqe : (inv, t) = q := by
              simpa using hq
            rw [hihE rfl, hN3, ← hqe]
        | cons q2 r2 =>
            rw [List.getLast?_cons_cons] at hq
            exact hihL q hq

/-- Success discriminator for a `generateTxtFile` outcome. -/
def GenResult.isWritten : GenResult → Bool
  | .written _ _ _ _ => true
  | _ => false

/-- C3 counterexample data: two successful calls for invoice `123`; the first
supplier name contains `".backup"`, so the artifact it writes is invisible to
the cleanup scan of the second call (line 273 excludes names containing
`.backup`). -/
def cexBackupA : InvoiceData :=
  { numero := chars "123", data_consegna := chars "2024-01-15",
    fornitore := chars "F.backup", punto_vendita := [], txt := chars "X",
    note := [], item_noconv := [], errori_consegna := [] }

def cexBackupB : InvoiceData :=
  { numero := chars "123", data_consegna := chars "2024-01-15",
    fornitore := chars "G", punto_vendita := [], txt := chars "Y",
    note := [], item_noconv := [], errori_consegna := [] }

set_option maxRecDepth 8000

/-- C3 counterexample: starting from an empty directory, two consecutive
successful `generateTxtFile` calls for invoice number `123` (the first with
supplier `F.backup`) leave TWO non-backup artifacts and ZERO `REPLACED`
backups, where the claim demands exactly one live artifact and N−1 = 1
backup: the scan of lines 269-274 skips any name containing `.backup`, so
the first call's artifact is never backed up or deleted. -/
theorem generateTxtFile_replace_cex :
    ((generateTxtFile [] cexBackupA 5 []).1).isWritten = true ∧
    ((generateTxtFile [] cexBackupB 7 (generateTxtFile [] cexBackupA 5 []).2).1).isWritten
      = true ∧
    (genRuns [] [(cexBackupA, 5), (cexBackupB, 7)] []).countP
      (fun e => isRepBackup (chars "123") e.name) = 0 ∧
    ((genRuns [] [(cexBackupA, 5), (cexBackupB, 7)] []).filter
      (fun e => !(decide (chars "REPLACED_" <+: e.name)))).length = 2 := by
  decide

/-- C3 (amended): for any sequence of successful calls for one sanitized
invoice number whose generated filenames contain no `".backup"`, with
strictly increasing `Date.now()` timestamps, starting from a directory with
distinct names, no live artifact and no `REPLACED` backup for that number:
after the calls exactly N−1 `REPLACED` backup files for the number exist,
and the live artifacts for the number are exactly the last call's file. -/
theorem generateTxtFile_replace_spec (negozi : List Negozio) (numClean : Chars)
    (calls : List (InvoiceData × Nat)) (d : Dir)
    (hnum : ∀ p ∈ calls, cleanForFilename (p.1).numero = numClean)
    (hgood : ∀ p ∈ calls, truthyL (p.1).numero = true ∧
      truthyL (p.1).data_consegna = true ∧ truthyL (p.1).fornitore = true ∧
      isBlankL (p.1).txt = false)
    (hnb : ∀ p ∈ calls, ¬ chars ".backup" <:+: fileNameOf negozi p.1)
    (hts : (calls.map (fun p => p.2)).Pairwise (· < ·))
    (hnodup : ((d.map (fun e => e.name)).Nodup))
    (hrep0 : d.countP (fun e => isRepBackup numClean e.name) = 0)
    (hlive0 : d.filter (fun e => isLiveFor numClean e.name) = [])
    (hne : ¬ calls = []) :
    (genRuns negozi calls d).countP (fun e => isRepBackup numClean e.name) =
      calls.length - 1 ∧
    (∀ q, calls.getLast? = some q →
      (genRuns negozi calls d).filter (fun e => isLiveFor numClean e.name) =
        [⟨fileNameOf negozi q.1, (q.1).txt⟩]) := by
  have hreps : ∀ a ∈ d, isRepBackup numClean a.name = true →
      ∃ f u, a.name = replacedName f u ∧ ∀ p ∈ calls, u < p.2 := by
    intro a ha hr
    exact absurd hr (by
      have := List.countP_eq_zero.mp hrep0 a ha
      simpa using this)
  obtain ⟨_, _, hC, hL⟩ :=
    genRuns_spec negozi numClean calls d hnum hgood hnb hts hnodup hreps
  refine ⟨?_, hL⟩
  rw [hC hne, hrep0, hlive0]
  simp

def witReplA : InvoiceData :=
  { numero := chars "123", data_consegna := chars "2024-01-15",
    fornitore := chars "A", punto_vendita := [], txt := chars "X",
    note := [], item_noconv := [], errori_consegna := [] }

def witReplB : InvoiceData :=
  { numero := chars "123", data_consegna := chars "2024-01-15",
    fornitore := chars "A", punto_vendita := [], txt := chars "Y",
    note := chars "err", item_noconv := [], errori_consegna := [] }

theorem generateTxtFile_replace_spec_witness :
    (¬ ([(witReplA, 5), (witReplB, 7)] : List (InvoiceData × Nat)) = []) ∧
    ((genRuns [] [(witReplA, 5), (witReplB, 7)] []).countP
        (fun e => isRepBackup (chars "123") e.name) =
      ([(witReplA, 5), (witReplB, 7)] : List (InvoiceData × Nat)).length - 1 ∧
    (∀ q, ([(witReplA, 5), (witReplB, 7)] : List (InvoiceData × Nat)).getLast? = some q →
      (genRuns [] [(witReplA, 5), (witReplB, 7)] []).filter
          (fun e => isLiveFor (chars "123") e.name) =
        [⟨fileNameOf [] q.1, (q.1).txt⟩])) :=
  ⟨by decide,
   generateTxtFile_replace_spec [] (chars "123") [(witReplA, 5), (witReplB, 7)] []
     (by decide) (by decide) (by decide) (by decide) (by decide) (by decide)
     (by decide) (by decide)⟩


/-! ## Row updates and audit records (src/server.js lines 780-873)

`updateSheetRow` snapshots five columns (lines 792-798), then for each key
of `updates` compares `valoriPrecedenti[campo]` — `undefined` for any other
column — with the incoming value and appends a change record on mismatch
(lines 804-822), saving the accumulated history only when at least one
record was appended (lines 842-845). -/

/-- A sheet row: column name to cell value; `none` is an absent cell
(JS `undefined`). -/
abbrev Row := Chars → Option Chars

/-- The five-key snapshot of lines 792-798: a defaulted string for the five
listed columns and `undefined` (`none`) for any other field name. -/
def valoriPrecedenti (row : Row) (campo : Chars) : Option Chars :=
  if campo = chars "data_consegna" ∨ campo = chars "confermato_da" ∨
     campo = chars "note" ∨ campo = chars "stato" ∨ campo = chars "errori_consegna"
  then some ((row campo).getD [])
  else none

/-- The comparison of line 810: `valoriPrecedenti[campo] !== updates[campo]`
(an `undefined` previous value differs from every string). -/
def auditChanged (row : Row) (u : Chars × Chars) : Bool :=
  decide (¬ valoriPrecedenti row u.1 = some u.2)

/-- The record pushed for one changed field (lines 812-818); the raw
`valorePrecedente` is defaulted by `|| ''` inside
`aggiungiModificaAlloStorico`. -/
def auditRecordOf (row : Row) (modificatoDa t1 t2 : Chars) (u : Chars × Chars) : Json :=
  ChangeRecord.toJson
    { timestamp := t1, campo := u.1,
      valore_precedente := (valoriPrecedenti row u.1).getD [],
      valore_nuovo := u.2, modificato_da := modificatoDa, data_modifica := t2 }

/-- The audit state of `updateSheetRow` (lines 800-822): the pair
`(nuovoStorico, isModification)` threaded through
`Object.keys(updates).forEach`; `t1`/`t2` are the `new Date()` renderings
used for the records of this call. -/
def updateSheetRowAudit (row : Row) (updates : List (Chars × Chars))
    (modificatoDa t1 t2 : Chars) : Chars × Bool :=
  if row (chars "stato") = some (chars "consegnato") then
    updates.foldl
      (fun acc u =>
        if valoriPrecedenti row u.1 ≠ some u.2 then
          (aggiungiModificaAlloStorico acc.1 u.1 ((valoriPrecedenti row u.1).getD [])
            u.2 modificatoDa t1 t2, true)
        else acc)
      ((row (chars "storico_modifiche")).getD [], false)
  else ((row (chars "storico_modifiche")).getD [], false)

theorem auditFold_spec (row : Row) (md t1 t2 : Chars) :
    ∀ (updates : List (Chars × Chars)) (s : Chars) (b : Bool),
    parseStoricoModifiche
        ((updates.foldl
          (fun acc u =>
            if valoriPrecedenti row u.1 ≠ some u.2 then
              (aggiungiModificaAlloStorico acc.1 u.1 ((valoriPrecedenti row u.1).getD [])
                u.2 md t1 t2, true)
            else acc)
          (s, b)).1) =
      parseStoricoModifiche s ++
        (updates.filter (auditChanged row)).map (auditRecordOf row md t1 t2) ∧
    (updates.foldl
        (fun acc u =>
          if valoriPrecedenti row u.1 ≠ some u.2 then
            (aggiungiModificaAlloStorico acc.1 u.1 ((valoriPrecedenti row u.1).getD [])
              u.2 md t1 t2, true)
          else acc)
        (s, b)).2 = (b || updates.any (auditChanged row)) := by
  intro updates
  induction updates with
  | nil =>
      intro s b
      exact ⟨by simp, by simp⟩
  | cons u rest ih =>
      intro s b
      rw [List.foldl_cons]
      by_cases hc : valoriPrecedenti row u.1 = some u.2
      · have hch : auditChanged row u = false := by
          unfold auditChanged
          rw [decide_eq_false]
          intro hn
          exact hn hc
        rw [if_neg (by intro hn; exact hn hc)]
        refine ⟨?_, ?_⟩
        · rw [(ih s b).1, List.filter_cons, hch]
          simp
        · rw [(ih s b).2, List.any_cons, hch, Bool.false_or]
      · have hch : auditChanged row u = true := by
          unfold auditChanged
          rw [decide_eq_true_eq]
          exact hc
        rw [if_pos hc]
        refine ⟨?_, ?_⟩
        · rw [(ih _ true).1, parseStorico_aggiungi, List.filter_cons, hch, if_pos rfl,
            List.map_cons, List.append_assoc]
          rfl
        · rw [(ih _ true).2, List.any_cons, hch, Bool.true_or, Bool.or_true]

/-- C1 (amended): `updateSheetRow` appends audit records only while the
row's stored status is `consegnato`; a record is appended for an update key
exactly when `valoriPrecedenti[campo]` differs from the incoming value —
which coincides with "the pre-update cell value differs from the new value"
ONLY for the five snapshotted columns (`data_consegna`, `confermato_da`,
`note`, `stato`, `errori_consegna`); for any other key the previous value
reads as `undefined`, so a record is appended even when the new value equals
the stored one. The appended records accumulate into a single serialized
history string, one per changed key, and the modification flag is set
exactly when at least one record was appended. -/
theorem updateSheetRow_audit_spec (row : Row) (updates : List (Chars × Chars))
    (md t1 t2 : Chars) :
    (¬ row (chars "stato") = some (chars "consegnato") →
      updateSheetRowAudit row updates md t1 t2 =
        ((row (chars "storico_modifiche")).getD [], false)) ∧
    (row (chars "stato") = some (chars "consegnato") →
      parseStoricoModifiche (updateSheetRowAudit row updates md t1 t2).1 =
        parseStoricoModifiche ((row (chars "storico_modifiche")).getD []) ++
          (updates.filter (auditChanged row)).map (auditRecordOf row md t1 t2) ∧
      (updateSheetRowAudit row updates md t1 t2).2 = updates.any (auditChanged row)) ∧
    (∀ f v, (f = chars "data_consegna" ∨ f = chars "confermato_da" ∨ f = chars "note" ∨
        f = chars "stato" ∨ f = chars "errori_consegna") →
      auditChanged row (f, v) = !(decide ((row f).getD [] = v))) := by
  refine ⟨?_, ?_, ?_⟩
  · intro h
    unfold updateSheetRowAudit
    rw [if_neg h]
  · intro h
    unfold updateSheetRowAudit
    rw [if_pos h]
    refine ⟨(auditFold_spec row md t1 t2 updates _ false).1, ?_⟩
    rw [(auditFold_spec row md t1 t2 updates _ false).2, Bool.false_or]
  · intro f v hf
    unfold auditChanged valoriPrecedenti
    rw [if_pos hf]
    by_cases hv : (row f).getD [] = v
    · rw [decide_eq_true hv, decide_eq_false (by intro hn; exact hn (by rw [hv]))]
      rfl
    · rw [decide_eq_false hv, decide_eq_true (by intro he; exact hv (Option.some.inj he))]
      rfl

/-- C1 counterexample row: status `consegnato`, column `item_noconv`
currently `X`, empty history. -/
def cexRowC1 : Row := fun name =>
  if name = chars "stato" then some (chars "consegnato")
  else if name = chars "item_noconv" then some (chars "X")
  else none

set_option maxRecDepth 40000

/-- C1 counterexample: updating `item_noconv` to `X` — the value it already
holds — appends ONE history record (and sets the modification flag), because
`item_noconv` is not among the five snapshotted columns, so its previous
value reads as `undefined !== 'X'` (line 810); the claim demands zero
records for a no-op update. -/
theorem updateSheetRow_cex :
    cexRowC1 (chars "item_noconv") = some (chars "X") ∧
    (parseStoricoModifiche
      (updateSheetRowAudit cexRowC1 [(chars "item_noconv", chars "X")]
        (chars "mario") (chars "T1") (chars "T2")).1).length = 1 ∧
    (updateSheetRowAudit cexRowC1 [(chars "item_noconv", chars "X")]
      (chars "mario") (chars "T1") (chars "T2")).2 = true := by
  refine ⟨by decide, by decide, by decide⟩

/-- C1 witness row: status `consegnato`, tracked column `note` holding
`old`. -/
def witRowC1 : Row := fun name =>
  if name = chars "stato" then some (chars "consegnato")
  else if name = chars "note" then some (chars "old")
  else none

theorem updateSheetRow_audit_spec_witness :
    witRowC1 (chars "stato") = some (chars "consegnato") ∧
    parseStoricoModifiche
        (updateSheetRowAudit witRowC1 [(chars "note", chars "new")]
          (chars "mario") (chars "T1") (chars "T2")).1 =
      parseStoricoModifiche ((witRowC1 (chars "storico_modifiche")).getD []) ++
        ([(chars "note", chars "new")].filter (auditChanged witRowC1)).map
          (auditRecordOf witRowC1 (chars "mario") (chars "T1") (chars "T2")) ∧
    (updateSheetRowAudit witRowC1 [(chars "note", chars "new")]
        (chars "mario") (chars "T1") (chars "T2")).2 =
      [(chars "note", chars "new")].any (auditChanged witRowC1) :=
  ⟨by decide,
   ((updateSheetRow_audit_spec witRowC1 [(chars "note", chars "new")]
      (chars "mario") (chars "T1") (chars "T2")).2.1 (by decide)).1,
   ((updateSheetRow_audit_spec witRowC1 [(chars "note", chars "new")]
      (chars "mario") (chars "T1") (chars "T2")).2.1 (by decide)).2⟩


/-! ## Error-report endpoint (src/server.js lines 1045-1267)

`POST /api/invoices/:id/report-error`: validate the delivery date (line
1053), then require at least one line flagged `modificato` or a non-blank
free-text note (lines 1058-1064) BEFORE any sheet access; on success set
four columns of the found row, save, and regenerate the artifact.
`validateDate` (line 115) calls the external `validator` library and the
clock, so it is a parameter of the model. -/

/-- JS truthiness of a JSON value (numbers of the model are naturals, so
only `0` is falsy). -/
def jTruthy : Json → Bool
  | .null => false
  | .bool b => b
  | .num n => decide (¬ n = 0)
  | .str s => truthyL s
  | .arr _ => true
  | .obj _ => true

/-- JS property access on a JSON object (`undefined` for a missing key or a
non-object). -/
def jGetProp (o : Json) (k : Chars) : Option Json :=
  match o with
  | .obj fs => (fs.find? (fun f => decide (f.1 = k))).map (fun f => f.2)
  | _ => none

/-- Truthiness of `m.modificato` for one line-discrepancy object. -/
def jModificato (m : Json) : Bool :=
  ((jGetProp m (chars "modificato")).map jTruthy).getD false

/-- A space run-collapser: `.replace(/\s+/g, ' ')` of `sanitizeText`. -/
def runCollapseSp : Bool → Chars → Chars
  | _, [] => []
  | inRun, c :: rest =>
      if isJsWs c then
        if inRun then runCollapseSp true rest
        else ' ' :: runCollapseSp true rest
      else c :: runCollapseSp false rest

/-- `sanitizeText` (src/server.js lines 100-105): control characters to
spaces, whitespace runs to one space, then trim. -/
def sanitizeText (s : Chars) : Chars :=
  trimJs (runCollapseSp false
    (s.map (fun c => if c.toNat ≤ 31 ∨ c.toNat = 127 then ' ' else c)))

/-- `row.set(k, v)`. -/
def rowSet (row : Row) (k v : Chars) : Row :=
  fun n => if n = k then some v else row n

/-- Replace the first row matched by `p` (the JS handler mutates the object
found by `rows.find`). -/
def setFirst : List Row → (Row → Bool) → Row → List Row
  | [], _, _ => []
  | r :: rest, p, r2 => if p r then r2 :: rest else r :: setFirst rest p r2

/-- Outcome of the report-error endpoint. -/
inductive ReportResult where
  | badDate : ReportResult
  | badIntent : ReportResult
  | notFound : ReportResult
  | ok (saved : Json) (gen : GenResult) : ReportResult

/-- The report-error handler (src/server.js lines 1045-1267) as a pure
transformer of the row store and the artifact directory; `validDate` stands
for `validateDate` (external validator + clock), `nowIso` for the
`new Date().toISOString()` of line 1078, `now` for the `Date.now()` used in
backup names, and the webhook call (lines 1205-1224) has no effect on
either store. -/
def reportError (validDate : Chars → Bool) (negozi : List Negozio)
    (nowIso userEmail id : Chars) (data_consegna : Option Chars)
    (modifiche_righe : Option (List Json)) (note_testuali : Option Chars)
    (rows : List Row) (now : Nat) (d : Dir) :
    ReportResult × List Row × Dir :=
  if (match data_consegna with
      | none => true
      | some dc => !(truthyL dc) || !(validDate dc)) then (.badDate, rows, d)
  else if !((modifiche_righe.map (fun l => l.any jModificato)).getD false) &&
          !((note_testuali.map (fun s => truthyL s && !(isBlankL s))).getD false) then
    (.badIntent, rows, d)
  else
    match rows.find? (fun r => decide (r (chars "id") = some id)) with
    | none => (.notFound, rows, d)
    | some row =>
        let dcs := trimJs ((data_consegna).getD [])
        let filtered := (modifiche_righe.getD []).filter jModificato
        let erroriData := Json.obj
          [(chars "timestamp", .str nowIso),
           (chars "data_consegna", .str dcs),
           (chars "utente", .str userEmail),
           (chars "modifiche", .arr filtered),
           (chars "note_testuali", .str (sanitizeText ((note_testuali).getD []))),
           (chars "righe_modificate", .num filtered.length),
           (chars "totale_righe", .num ((modifiche_righe.getD []).length))]
        let erroriJson := encJson erroriData
        let row1 := rowSet (rowSet (rowSet (rowSet row
          (chars "errori_consegna") erroriJson)
          (chars "stato") (chars "consegnato"))
          (chars "data_consegna") dcs)
          (chars "confermato_da") userEmail
        let inv : InvoiceData :=
          { numero := (row (chars "numero")).getD []
            data_consegna := dcs
            fornitore := (row (chars "fornitore")).getD []
            punto_vendita := (row (chars "punto_vendita")).getD []
            txt := (row (chars "txt")).getD []
            note := sanitizeText ((note_testuali).getD [])
            item_noconv := (row (chars "item_noconv")).getD []
            errori_consegna := erroriJson }
        let g := generateTxtFile negozi inv now d
        (.ok erroriData g.1,
         setFirst rows (fun r => decide (r (chars "id") = some id)) row1, g.2)

/-- C7: a submission with no line discrepancy flagged `modificato` and a
blank free-text note is rejected by one of the two validation guards (an
invalid date hits the first, otherwise the intent guard of lines 1061-1064
fires); the row store and the artifact directory are returned untouched —
both guards run before the sheet is read, any field set, or any file
written. -/
theorem reportError_reject (validDate : Chars → Bool) (negozi : List Negozio)
    (nowIso userEmail id : Chars) (data_consegna : Option Chars)
    (modifiche_righe : Option (List Json)) (note_testuali : Option Chars)
    (rows : List Row) (now : Nat) (d : Dir)
    (hmod : (modifiche_righe.getD []).any jModificato = false)
    (hnote : isBlankL ((note_testuali).getD []) = true) :
    ((reportError validDate negozi nowIso userEmail id data_consegna modifiche_righe
        note_testuali rows now d).1 = .badDate ∨
     (reportError validDate negozi nowIso userEmail id data_consegna modifiche_righe
        note_testuali rows now d).1 = .badIntent) ∧
    (reportError validDate negozi nowIso userEmail id data_consegna modifiche_righe
        note_testuali rows now d).2.1 = rows ∧
    (reportError validDate negozi nowIso userEmail id data_consegna modifiche_righe
        note_testuali rows now d).2.2 = d := by
  have hA : (modifiche_righe.map (fun l => l.any jModificato)).getD false = false := by
    cases modifiche_righe with
    | none => rfl
    | some l => exact hmod
  have hB : (note_testuali.map (fun s => truthyL s && !(isBlankL s))).getD false = false := by
    cases note_testuali with
    | none => rfl
    | some s =>
        have hs : isBlankL s = true := hnote
        simp [Option.map, Option.getD, hs]
  unfold reportError
  by_cases hdate : (match data_consegna with
      | none => true
      | some dc => !(truthyL dc) || !(validDate dc)) = true
  · rw [if_pos hdate]
    exact ⟨Or.inl rfl, rfl, rfl⟩
  · rw [if_neg hdate, if_pos (by rw [hA, hB]; rfl)]
    exact ⟨Or.inr rfl, rfl, rfl⟩

theorem reportError_reject_witness :
    (((some [] : Option (List Json)).getD []).any jModificato = false ∧
     isBlankL ((some [] : Option Chars).getD []) = true) ∧
    (((reportError (fun _ => true) [] (chars "T1") (chars "u") (chars "7")
        (some (chars "2024-01-15")) (some []) (some []) [] 0 []).1 = .badDate ∨
      (reportError (fun _ => true) [] (chars "T1") (chars "u") (chars "7")
        (some (chars "2024-01-15")) (some []) (some []) [] 0 []).1 = .badIntent) ∧
     (reportError (fun _ => true) [] (chars "T1") (chars "u") (chars "7")
        (some (chars "2024-01-15")) (some []) (some []) [] 0 []).2.1 = [] ∧
     (reportError (fun _ => true) [] (chars "T1") (chars "u") (chars "7")
        (some (chars "2024-01-15")) (some []) (some []) [] 0 []).2.2 = []) :=
  ⟨⟨by decide, by decide⟩,
   reportError_reject (fun _ => true) [] (chars "T1") (chars "u") (chars "7")
     (some (chars "2024-01-15")) (some []) (some []) [] 0 [] (by decide) (by decide)⟩


/-! ## Artifact content read path (src/server.js lines 2370-2433, second
variant)

`GET /api/txt-files/:filename/content`: validate the name, derive the
invoice number from the filename, compute the authoritative error flag from
the sheet row's `note`/`item_noconv`, rename the file on disk when the flag
demands an `_ERRORI` suffix the name lacks (tolerating rename failure), and
serve the content with `hasErrors` computed from the served name OR the
authoritative flag. -/

/-- `fs.readFile`: content of the first entry with the given name. -/
def dirLookup (d : Dir) (n : Chars) : Option Chars :=
  (d.find? (fun e => decide (e.name = n))).map (fun e => e.content)

/-- `fs.rename old new`: the target is replaced, entries named `old` take
the name `new`. -/
def dirRename (d : Dir) (oldN newN : Chars) : Dir :=
  (dirErase d newN).map (fun e => if e.name = oldN then ⟨newN, e.content⟩ else e)

/-- `filename.split('_')[0]` (line 2378). -/
def numeroDocOf (filename : Chars) : Chars :=
  ((filename.splitOn '_').headD [])

/-- The authoritative error flag of lines 2384-2387: `note` or
`item_noconv` of the invoice found for the filename's number, each
defaulted by `|| ''`, non-blank. -/
def shouldOf (invoices : List InvoiceData) (filename : Chars) : Bool :=
  (truthyL (((invoices.find? (fun inv => decide (inv.numero = numeroDocOf filename))).map
      (fun inv => inv.note)).getD []) &&
    !(isBlankL (((invoices.find? (fun inv =>
      decide (inv.numero = numeroDocOf filename))).map (fun inv => inv.note)).getD []))) ||
  (truthyL (((invoices.find? (fun inv => decide (inv.numero = numeroDocOf filename))).map
      (fun inv => inv.item_noconv)).getD []) &&
    !(isBlankL (((invoices.find? (fun inv =>
      decide (inv.numero = numeroDocOf filename))).map (fun inv => inv.item_noconv)).getD [])))

/-- `filename.replace(/\.txt$/i, '_ERRORI.txt')` on a name that passed the
`endsWith('.txt')` validation. -/
def newNameOf (filename : Chars) : Chars :=
  filename.take (filename.length - 4) ++ chars "_ERRORI.txt"

/-- Outcome of the content read. -/
inductive ReadResult where
  | badName : ReadResult
  | notFound : ReadResult
  | ok (servedName : Chars) (renamedTo : Option Chars) (content : Chars)
      (hasErrors : Bool) : ReadResult
deriving DecidableEq

/-- Lines 2406-2427: read the (possibly renamed) file and build the
response; `hasErrors = filename.includes('_ERRORI') || shouldHaveErrorSuffix`
on the served name. -/
def finishRead (should : Bool) (d : Dir) (served : Chars) (renamedTo : Option Chars) :
    ReadResult × Dir :=
  match dirLookup d served with
  | none => (.notFound, d)
  | some content =>
      (.ok served renamedTo content (decide (chars "_ERRORI" <:+: served) || should), d)

/-- The content read handler as a pure transformer of the artifact
directory; `renameOk` models whether the `fs.rename` of line 2398 succeeds
(its failure is caught at line 2401 and only logged). -/
def txtContentGet (invoices : List InvoiceData) (renameOk : Bool) (filename : Chars)
    (d : Dir) : ReadResult × Dir :=
  if (!(decide (chars ".txt" <:+ filename)) || decide (chars ".." <:+: filename) ||
      decide ('/' ∈ filename)) then (.badName, d)
  else if shouldOf invoices filename && !(decide (chars "_ERRORI.txt" <:+: filename)) then
    match dirLookup d filename with
    | none => finishRead (shouldOf invoices filename) d filename none
    | some _ =>
        if renameOk then
          finishRead (shouldOf invoices filename)
            (dirRename d filename (newNameOf filename)) (newNameOf filename)
            (some (newNameOf filename))
        else finishRead (shouldOf invoices filename) d filename none
  else finishRead (shouldOf invoices filename) d filename none

/-- Renaming the looked-up entry preserves its content under the new name. -/
theorem dirLookup_rename : ∀ {d : Dir} {oldN newN c : Chars}, ¬ oldN = newN →
    dirLookup d oldN = some c → dirLookup (dirRename d oldN newN) newN = some c := by
  intro d
  induction d with
  | nil => intro oldN newN c _ h; cases h
  | cons e rest ih =>
      intro oldN newN c hne h
      by_cases hen : e.name = newN
      · have h1 : dirLookup rest oldN = some c := by
          unfold dirLookup at h
          rw [List.find?_cons_of_neg] at h
          · exact h
          · simp only [decide_eq_true_eq]
            intro heo
            exact hne (by rw [← heo]; exact hen)
        have h2 : dirRename (e :: rest) oldN newN = dirRename rest oldN newN := by
          unfold dirRename dirErase
          rw [List.filter_cons, if_neg (by simp [hen])]
        rw [h2]
        exact ih hne h1
      · have h2 : dirRename (e :: rest) oldN newN =
            (if e.name = oldN then (⟨newN, e.content⟩ : FsEntry) else e) ::
              dirRename rest oldN newN := by
          unfold dirRename dirErase
          rw [List.filter_cons, if_pos (by simp [hen]), List.map_cons]
        rw [h2]
        by_cases heo : e.name = oldN
        · have hc : c = e.content := by
            unfold dirLookup at h
            rw [List.find?_cons_of_pos] at h
            · exact (Option.some.inj h).symm
            · simp only [decide_eq_true_eq]
              exact heo
          rw [if_pos heo, hc]
          unfold dirLookup
          rw [List.find?_cons_of_pos]
          · rfl
          · simp
        · have h1 : dirLookup rest oldN = some c := by
            unfold dirLookup at h
            rw [List.find?_cons_of_neg] at h
            · exact h
            · simp only [decide_eq_true_eq]
              exact heo
          rw [if_neg heo]
          have hih := ih hne h1
          unfold dirLookup at hih ⊢
          rw [List.find?_cons_of_neg]
          · exact hih
          · simp only [decide_eq_true_eq]
            exact hen

/-- C9: on the content read path, if the requested name is valid, exists in
the directory, lacks the `_ERRORI.txt` marker, and the authoritative sheet
data flags errors: when the rename succeeds the file is served under the
new name (suffix inserted before `.txt`) with its content moved on disk;
when the rename fails the read still succeeds under the old name with the
directory untouched; in both cases the reported `hasErrors` flag is `true`
because the authoritative flag is OR-ed in (line 2410), independent of the
name on disk. -/
theorem txtContentGet_rename (invoices : List InvoiceData) (filename : Chars)
    (d : Dir) (content : Chars)
    (hval : decide (chars ".txt" <:+ filename) = true)
    (hdots : decide (chars ".." <:+: filename) = false)
    (hslash : decide ('/' ∈ filename) = false)
    (hshould : shouldOf invoices filename = true)
    (hcur : decide (chars "_ERRORI.txt" <:+: filename) = false)
    (hex : dirLookup d filename = some content) :
    txtContentGet invoices true filename d =
      (.ok (newNameOf filename) (some (newNameOf filename)) content true,
       dirRename d filename (newNameOf filename)) ∧
    txtContentGet invoices false filename d =
      (.ok filename none content true, d) := by
  have hne : ¬ filename = newNameOf filename := by
    intro he
    have hsuf : chars "_ERRORI.txt" <:+: newNameOf filename :=
      (List.suffix_append _ _).isInfix
    rw [← he] at hsuf
    rw [decide_eq_true hsuf] at hcur
    cases hcur
  have hds : (!(decide (chars ".txt" <:+ filename)) || decide (chars ".." <:+: filename) ||
      decide ('/' ∈ filename)) = false := by
    rw [hval, hdots, hslash]
    rfl
  have hguard : (shouldOf invoices filename &&
      !(decide (chars "_ERRORI.txt" <:+: filename))) = true := by
    rw [hshould, hcur]
    rfl
  constructor
  · unfold txtContentGet
    rw [if_neg (by rw [hds]; intro hx; cases hx), if_pos hguard, hex]
    rw [if_pos rfl]
    unfold finishRead
    rw [dirLookup_rename hne hex]
    have hflag : (decide (chars "_ERRORI" <:+: newNameOf filename) ||
        shouldOf invoices filename) = true := by
      rw [hshould]
      exact Bool.or_true _
    rw [hflag]
  · unfold txtContentGet
    rw [if_neg (by rw [hds]; intro hx; cases hx), if_pos hguard, hex]
    rw [if_neg (by intro hx; cases hx)]
    unfold finishRead
    rw [hex]
    have hflag : (decide (chars "_ERRORI" <:+: filename) ||
        shouldOf invoices filename) = true := by
      rw [hshould]
      exact Bool.or_true _
    rw [hflag]

/-- C9 witness invoice: number `123` with a non-blank `note`. -/
def witInvC9 : InvoiceData :=
  { numero := chars "123", data_consegna := chars "2024-01-15",
    fornitore := chars "A", punto_vendita := [], txt := chars "X",
    note := chars "err", item_noconv := [], errori_consegna := [] }

theorem txtContentGet_rename_witness :
    (shouldOf [witInvC9] (chars "123_2024-01-15_A_UNKNOWN.txt") = true ∧
     dirLookup [⟨chars "123_2024-01-15_A_UNKNOWN.txt", chars "X"⟩]
       (chars "123_2024-01-15_A_UNKNOWN.txt") = some (chars "X")) ∧
    (txtContentGet [witInvC9] true (chars "123_2024-01-15_A_UNKNOWN.txt")
        [⟨chars "123_2024-01-15_A_UNKNOWN.txt", chars "X"⟩] =
      (.ok (newNameOf (chars "123_2024-01-15_A_UNKNOWN.txt"))
        (some (newNameOf (chars "123_2024-01-15_A_UNKNOWN.txt"))) (chars "X") true,
       dirRename [⟨chars "123_2024-01-15_A_UNKNOWN.txt", chars "X"⟩]
         (chars "123_2024-01-15_A_UNKNOWN.txt")
         (newNameOf (chars "123_2024-01-15_A_UNKNOWN.txt"))) ∧
     txtContentGet [witInvC9] false (chars "123_2024-01-15_A_UNKNOWN.txt")
        [⟨chars "123_2024-01-15_A_UNKNOWN.txt", chars "X"⟩] =
      (.ok (chars "123_2024-01-15_A_UNKNOWN.txt") none (chars "X") true,
       [⟨chars "123_2024-01-15_A_UNKNOWN.txt", chars "X"⟩])) :=
  ⟨⟨by decide, by decide⟩,
   txtContentGet_rename [witInvC9] (chars "123_2024-01-15_A_UNKNOWN.txt")
     [⟨chars "123_2024-01-15_A_UNKNOWN.txt", chars "X"⟩] (chars "X")
     (by decide) (by decide) (by decide) (by decide) (by decide) (by decide)⟩


end FDV
